import Mathlib

/-!
Verification of the cyclone kernel's memory-management and scheduling core
against its specification.  The development shallowly embeds the Rust
sources (32-bit x86 instantiation: machine words are 32 bits, page tables
have 1024 entries, pages and frames are 4 KiB).  Machine integers are
modelled as `Nat` with explicit `% 2^32` where wrap-around matters, and
panicking code paths return `Except String`.
-/

namespace Cyclone

/-- Width of a machine word (`usize::BITS` on x86). -/
def wordBits : Nat := 32

/-- All-ones machine word (`usize::MAX` on x86). -/
def wordMax : Nat := 2 ^ wordBits - 1

/-- Fuel-bounded count of trailing binary zeros; `ctzAux fuel x` equals the
index of the lowest set bit of `x` whenever `0 < x < 2 ^ fuel`. -/
def ctzAux : Nat → Nat → Nat
  | 0, _ => 0
  | fuel + 1, x => if x % 2 = 1 then 0 else ctzAux fuel (x / 2) + 1

/-- Embedding of `usize::trailing_zeros` (32-bit word). -/
def ctz (x : Nat) : Nat :=
  if x = 0 then wordBits else ctzAux wordBits x

/-- Fuel-bounded base-2 logarithm; agrees with the position of the highest
set bit of `x` whenever `0 < x < 2 ^ fuel`. -/
def log2Aux : Nat → Nat → Nat
  | 0, _ => 0
  | fuel + 1, x => if 2 ≤ x then log2Aux fuel (x / 2) + 1 else 0

/-- Embedding of `usize::leading_zeros` (32-bit word). -/
def clz (x : Nat) : Nat :=
  wordBits - (if x = 0 then 0 else log2Aux wordBits x + 1)

/-- Embedding of `usize::wrapping_neg`. -/
def wneg (x : Nat) : Nat := (2 ^ wordBits - x) % 2 ^ wordBits

/-- Embedding of `x & x.wrapping_neg()`: the lowest set bit of a word. -/
def lowBit (x : Nat) : Nat := x &&& wneg x

/-- Embedding of `x ^ (x & x.wrapping_neg())`: clear the lowest set bit. -/
def clearLow (x : Nat) : Nat := x ^^^ lowBit x

/-- The position of the highest set bit of a nonzero word. -/
def msb (x : Nat) : Nat := log2Aux wordBits x

/-! ## Bitmap (`bitmap.rs`)

The bitmap is a boxed slice of machine words; bit `i` of the set is bit
`i % wordBits` of word `i / wordBits`.  Panicking paths (`assert!`,
out-of-bounds indexing) are modelled with `Except String`. -/

/-- Dense bitset backed by a list of machine words (`Bitmap(Box<[Block]>)`). -/
structure Bitmap where
  blocks : List Nat

/-- Bit `i` of a bitmap, reading out-of-range words as zero. -/
def bmBit (blocks : List Nat) (i : Nat) : Bool :=
  (blocks.getD (i / wordBits) 0).testBit (i % wordBits)

/-- Iterator state of `ConsecutiveZeros` (`bitmap.rs`): the backing words, the
current word index, the still-unconsumed bits of the current word, the start
of the prospective zero run, and the requested minimum length `fits`. -/
structure ConsecutiveZeros where
  blocks : List Nat
  block_index : Nat
  block : Nat
  index : Nat
  fits : Nat

/-- Embedding of `Bitmap::consecutive_zeros`: `assert!(fits > 0)` and the
unconditional read of word 0 are the two panicking paths. -/
def Bitmap.consecutive_zeros (b : Bitmap) (fits : Nat) : Except String ConsecutiveZeros :=
  if fits = 0 then .error "assertion failed: fits > 0"
  else
    match b.blocks with
    | [] => .error "index out of bounds: the len is 0 but the index is 0"
    | b0 :: _ => .ok ⟨b.blocks, 0, b0, 0, fits⟩

/-- Inner `while self.block != 0` loop of `ConsecutiveZeros::next`.  The fuel
argument is instantiated with the current word value, which bounds the number
of set bits that can be consumed.  Returns either an emitted range together
with the updated `(block, index)` pair, or the final `index` once the word is
exhausted. -/
def czInner : Nat → Nat → Nat → Nat → Nat → ((Nat × Nat) × Nat × Nat) ⊕ Nat
  | 0, _, _, _, idx => Sum.inr idx
  | fuel + 1, bi, fits, block, idx =>
    if block = 0 then Sum.inr idx
    else
      let next := bi * wordBits + ctz block
      let idx' := next + 1
      let block' := clearLow block
      if fits ≤ next - idx then Sum.inl ((idx, next), block', idx')
      else czInner fuel bi fits block' idx'

/-- One pass of the outer `while self.block_index < len` loop of
`ConsecutiveZeros::next`; the fuel argument is instantiated with the number of
words still to scan.  Subtraction mirrors `usize` subtraction, which never
underflows on states reachable from the constructor. -/
def czNextGo : Nat → ConsecutiveZeros → Option ((Nat × Nat) × ConsecutiveZeros)
  | 0, _ => none
  | fuel + 1, s =>
    if s.block_index < s.blocks.length then
      if s.block = 0 ∧ s.fits ≤ (s.block_index + 1) * wordBits - s.index then
        some ((s.index, (s.block_index + 1) * wordBits),
          { s with index := (s.block_index + 1) * wordBits,
                   block_index := s.block_index + 1,
                   block := s.blocks.getD (s.block_index + 1) 0 })
      else
        match czInner s.block s.block_index s.fits s.block s.index with
        | Sum.inl ((a, b), block', idx') =>
          some ((a, b), { s with block := block', index := idx' })
        | Sum.inr idx' =>
          let next := idx' + clz (s.blocks.getD s.block_index 0)
          if s.fits ≤ next - idx' then
            some ((idx', next),
              { s with index := next,
                       block_index := s.block_index + 1,
                       block := s.blocks.getD (s.block_index + 1) 0 })
          else
            czNextGo fuel
              { s with index := idx',
                       block_index := s.block_index + 1,
                       block := s.blocks.getD (s.block_index + 1) 0 }
    else none

/-- Embedding of `ConsecutiveZeros::next`. -/
def czNext (s : ConsecutiveZeros) : Option ((Nat × Nat) × ConsecutiveZeros) :=
  czNextGo (s.blocks.length - s.block_index) s

/-- The list of ranges yielded by up to `fuel` calls to `next`. -/
def czRuns : Nat → ConsecutiveZeros → List (Nat × Nat)
  | 0, _ => []
  | fuel + 1, s =>
    match czNext s with
    | none => []
    | some (r, s') => r :: czRuns fuel s'

/-- Embedding of the `Masks` iterator: yields `(word index, mask)` pairs.
Fuel `last_index + 1 - first_index` covers every iteration. -/
def masksGo : Nat → Nat → Nat → Nat → Nat → List (Nat × Nat)
  | 0, _, _, _, _ => []
  | fuel + 1, first_index, first_mask, last_index, last_mask =>
    if first_index < last_index then
      (first_index, first_mask) :: masksGo fuel (first_index + 1) wordMax last_index last_mask
    else if first_index = last_index then
      if first_mask &&& last_mask = 0 then [] else [(first_index, first_mask &&& last_mask)]
    else []

/-- Embedding of `Masks::new` over a half-open range `start..stop` (the only
range shape the allocator uses); the two `assert!`s are the panicking paths. -/
def masksNew (start stop len : Nat) : Except String (List (Nat × Nat)) :=
  if stop ≤ start then .error "assertion failed: end > start"
  else if len < stop then .error "assertion failed: end <= length"
  else
    .ok (masksGo (stop / wordBits + 1 - start / wordBits)
      (start / wordBits)
      ((wordMax <<< (start % wordBits)) % 2 ^ wordBits)
      (stop / wordBits)
      ((wordMax >>> 1) >>> (wordBits - stop % wordBits - 1)))

/-- Fold applying one word-level update per `(index, mask)` pair. -/
def applyMasks (f : Nat → Nat → Nat) : List Nat → List (Nat × Nat) → List Nat
  | blocks, [] => blocks
  | blocks, (i, m) :: rest => applyMasks f (blocks.set i (f (blocks.getD i 0) m)) rest

/-- Embedding of `Bitmap::set_ones` on the range `start..stop`. -/
def Bitmap.set_ones (b : Bitmap) (start stop : Nat) : Except String Bitmap := do
  let ms ← masksNew start stop (wordBits * b.blocks.length)
  .ok ⟨applyMasks (fun w m => w ||| m) b.blocks ms⟩

/-- Embedding of `Bitmap::set_zeros` on the range `start..stop`; `!mask` on a
machine word is `wordMax ^^^ mask`. -/
def Bitmap.set_zeros (b : Bitmap) (start stop : Nat) : Except String Bitmap := do
  let ms ← masksNew start stop (wordBits * b.blocks.length)
  .ok ⟨applyMasks (fun w m => w &&& (wordMax ^^^ m)) b.blocks ms⟩

/-! ## Physical-frame allocator (`mm/pm.rs`) -/

/-- Frame allocator: used-frame bitmap (1 = used, 0 = free) plus a free-count
shadow. -/
structure PhysicalMemory where
  used : Bitmap
  free : Nat

/-- Embedding of `PhysicalMemory::mark_used`; `free -= count` is `usize`
arithmetic, modelled with truncated subtraction (underflow is a caller
contract violation). -/
def PhysicalMemory.mark_used (pm : PhysicalMemory) (frame_start count : Nat) :
    Except String PhysicalMemory := do
  let b ← pm.used.set_ones frame_start (frame_start + count)
  .ok ⟨b, pm.free - count⟩

/-- Embedding of `PhysicalMemory::mark_free`. -/
def PhysicalMemory.mark_free (pm : PhysicalMemory) (frame_start count : Nat) :
    Except String PhysicalMemory := do
  let b ← pm.used.set_zeros frame_start (frame_start + count)
  .ok ⟨b, pm.free + count⟩

/-- Embedding of `PhysicalMemory::find_free`: guard on the free count, then
take the first range from the consecutive-zeros iterator.  It reads but never
writes the allocator state. -/
def PhysicalMemory.find_free (pm : PhysicalMemory) (count : Nat) :
    Except String (Option Nat) :=
  if pm.free < count then .ok none
  else do
    let it ← pm.used.consecutive_zeros count
    .ok ((czNext it).map (fun r => r.1.1))

/-- The static `PHYS_MEM` initializer: a zero-length bitmap and free count 0. -/
def physMemStatic : PhysicalMemory := ⟨⟨[]⟩, 0⟩

/-! ## Correctness of the consecutive-zeros scan -/

/-- `t` starts a run of `fits` zero bits lying inside the bitmap. -/
def ValidStart (blocks : List Nat) (fits t : Nat) : Prop :=
  t + fits ≤ wordBits * blocks.length ∧
  ∀ u, t ≤ u → u < t + fits → bmBit blocks u = false

/-- Soundness of one yielded range. -/
def CZOk (blocks : List Nat) (fits : Nat) (r : Nat × Nat) : Prop :=
  fits ≤ r.2 - r.1 ∧ r.1 ≤ r.2 ∧ r.2 ≤ wordBits * blocks.length ∧
  ∀ u, r.1 ≤ u → u < r.2 → bmBit blocks u = false

/-- Loop invariant of the scan; fields are explained in the claim proofs. -/
structure CZInv (s : ConsecutiveZeros) : Prop where
  wordsLt : ∀ b ∈ s.blocks, b < 2 ^ wordBits
  fitsPos : 1 ≤ s.fits
  biLe : s.block_index ≤ s.blocks.length
  blockLt : s.block < 2 ^ wordBits
  blockChar : ∀ j, j < wordBits → s.block.testBit j =
    (bmBit s.blocks (s.block_index * wordBits + j) &&
      decide (s.index ≤ s.block_index * wordBits + j))
  idxBound : s.index ≤ s.block_index * wordBits ∨
    (s.blocks.getD s.block_index 0 ≠ 0 ∧
      s.index ≤ s.block_index * wordBits + msb (s.blocks.getD s.block_index 0) + 1)
  zerosBefore : ∀ t, s.index ≤ t → t < s.block_index * wordBits →
    bmBit s.blocks t = false
  exhausted : s.blocks.length ≤ s.block_index →
    wordBits * s.blocks.length < s.index + s.fits

/-- Contract of one `next()` call from a state satisfying the invariant:
either no further range is yielded and no run of `fits` zeros starts at or
after the current scan position, or a sound range is yielded, the invariant
is preserved, and no run starts between the scan position and the range. -/
def CZStep (s : ConsecutiveZeros) (res : Option ((Nat × Nat) × ConsecutiveZeros)) : Prop :=
  match res with
  | none => ∀ t, s.index ≤ t → ¬ ValidStart s.blocks s.fits t
  | some (r, s') =>
      CZInv s' ∧ s'.blocks = s.blocks ∧ s'.fits = s.fits ∧
      CZOk s.blocks s.fits r ∧ s.index ≤ r.1 ∧ r.2 ≤ s'.index ∧
      ∀ t, s.index ≤ t → t < r.1 → ¬ ValidStart s.blocks s.fits t

/-! ## Paging constants and the recursive page-table mapping (`mm/pg.rs`),
x86 (32-bit) instantiation -/

/-- `size_of::<PageTable<Level1>>()`: 1024 four-byte entries. -/
def BYTES_PER_PAGE : Nat := 4096

def PAGES_PER_TABLE : Nat := 1024

def PAGES_TOTAL : Nat := 0xFFFFF

/-- Virtual address of the recursively mapped top-level table on x86. -/
def PAGE_TABLE_ADDR : Nat := 0xFFFFF000

/-- `Level1::index` on x86: `page.0 >> (10 * 0) & ((1 << 10) - 1)`. -/
def Level1.index (page : Nat) : Nat := (page >>> (10 * 0)) &&& ((1 <<< 10) - 1)

/-- `Level2::index` on x86: `page.0 >> (10 * 1) & ((1 << 10) - 1)`. -/
def Level2.index (page : Nat) : Nat := (page >>> (10 * 1)) &&& ((1 <<< 10) - 1)

/-- `Page::ptr` on x86: `(self.0 * BYTES_PER_PAGE) as *mut ()`, `usize`
multiplication truncating modulo `2^32`. -/
def Page.ptr (p : Nat) : Nat := p * BYTES_PER_PAGE % 2 ^ wordBits

/-- Embedding of `PageTable::<Level2>::table` on x86: the entry lookup guard
followed by `Page(((addr << 10) >> 12) | L::index(page)).ptr()`, every shift
in `usize` arithmetic.  `entries` is the top-level table's entry array and
`addr` the table's own virtual address. -/
def PageTable.table (entries : Nat → Nat) (addr page : Nat) : Option Nat :=
  if entries (Level2.index page) = 0 then none
  else some (Page.ptr ((((addr <<< 10) % 2 ^ wordBits) >>> 12) ||| Level2.index page))

/-! ## Physical-memory initialization (`mm/mod.rs`) -/

/-- `multiboot_mmap_entry`: base address, byte length and region type. -/
structure MmapEntry where
  addr : Nat
  len : Nat
  type_ : Nat

def MULTIBOOT_MEMORY_AVAILABLE : Nat := 1

/-- Embedding of `init_phys_mem_bare`: a 2048-frame all-zero bitmap with free
count 2048, then `mark_used(0, 1024)` for system and kernel frames. -/
def init_phys_mem_bare : Except String PhysicalMemory :=
  (PhysicalMemory.mk ⟨List.replicate (2048 / wordBits) 0⟩ 2048).mark_used 0 1024

/-- Embedding of `init_phys_mem_e820` (`mm/mod.rs`): computes the highest
available frame, REPLACES the allocator with a fresh all-ones bitmap and free
count 0, marks every available e820 region free, then `mark_used(0, 1024)`.
The prior allocator state is not an input: the source overwrites
`*phys_mem` wholesale. -/
def init_phys_mem_e820 (phys_mem_map : List MmapEntry) : Except String PhysicalMemory := do
  let avail := phys_mem_map.filter (fun e => e.type_ == MULTIBOOT_MEMORY_AVAILABLE)
  match (avail.map (fun e => (e.addr + e.len) / BYTES_PER_PAGE)).max? with
  | none => .error "called Option::unwrap on a None value"
  | some phys_mem_max =>
    let pm0 : PhysicalMemory :=
      ⟨⟨List.replicate ((phys_mem_max + (wordBits - 1)) / wordBits) wordMax⟩, 0⟩
    let pm ← phys_mem_map.foldlM (fun pm e =>
      if e.type_ ≠ MULTIBOOT_MEMORY_AVAILABLE then pure pm
      else
        let frame_start := e.addr / BYTES_PER_PAGE
        let frame_end := frame_start + e.len / BYTES_PER_PAGE
        let frames := frame_end - frame_start
        if frames = 0 then pure pm
        else pm.mark_free frame_start frames) pm0
    pm.mark_used 0 1024

/-! ## Scheduler entry (`ex/mod.rs`) and context construction (`sm/ctx.rs`) -/

/-- A runnable: saved stack pointer, method (code address) and its argument. -/
structure Thread where
  stack_ptr : Nat
  method : Nat
  method_arg : Nat

/-- Scheduler state: its own stack pointer, the run queue and the current
work slot. -/
structure Scheduler where
  stack_ptr : Nat
  work_queue : List Thread
  work : Option Thread

/-- Embedding of `Scheduler::enter`.  `cur_sp` is the stack-pointer value the
`context_swap` call would save; in the interrupt branch it is written into
the re-queued thread, in the non-interrupt branch it is discarded.  Both
branches panic with "Entered while not in a thread" when `work` is empty. -/
def Scheduler.enter (s : Scheduler) (interrupt : Bool) (cur_sp : Nat) :
    Except String Scheduler :=
  if interrupt then
    match s.work with
    | some work =>
      .ok ⟨s.stack_ptr, s.work_queue ++ [{ work with stack_ptr := cur_sp }], none⟩
    | none => .error "Entered while not in a thread"
  else
    match s.work with
    | some _ => .ok ⟨s.stack_ptr, s.work_queue, none⟩
    | none => .error "Entered while not in a thread"

/-- Embedding of `Context::new` (`sm/ctx.rs`) on x86.  Memory is a word map
keyed by byte address; the returned pair is the updated memory and the saved
stack-pointer value.  The pointer starts at `stack_base + stack_size`, steps
down one word and writes the entry point, then steps down four more words
(ebx, ebp, esi, edi) without writing. -/
def Context.new (entry_point stack_base stack_size : Nat) (mem : Nat → Nat) :
    (Nat → Nat) × Nat :=
  let stack := stack_base + stack_size
  let stack := stack - 4
  let mem := fun a => if a = stack then entry_point else mem a
  let stack := stack - 4 * 4
  (mem, stack)

/-! ## Virtual memory (`mm/vm.rs`) on x86: two-level paging over the
physical-frame allocator -/

/-- Combined paging and frame-allocator state: the top-level (L2) entry
array and the contents of each L1 table, keyed by top-level slot. -/
structure VMState where
  phys : PhysicalMemory
  l2 : Nat → Nat
  l1 : Nat → Nat → Nat

/-- `PageTableEntry::map`: `PRESENT | WRITEABLE | frame << 12` in `usize`
arithmetic. -/
def entryMap (frame : Nat) : Nat := 1 ||| 2 ||| ((frame <<< 12) % 2 ^ wordBits)

/-- Point update of an L1 entry array. -/
def l1set (l1 : Nat → Nat → Nat) (i j v : Nat) : Nat → Nat → Nat :=
  fun a b => if a = i then (if b = j then v else l1 a b) else l1 a b

/-- Embedding of `PageTable::table_create` at the top level: if the L2 entry
covering `page` is absent, take one frame from the physical allocator (the
`unwrap` panics when none is free), map it and zero the fresh L1 table. -/
def tableCreate (s : VMState) (page : Nat) : Except String VMState :=
  if s.l2 (Level2.index page) ≠ 0 then .ok s
  else
    match s.phys.find_free 1 with
    | .error e => .error e
    | .ok none => .error "called Option::unwrap on a None value"
    | .ok (some frame) =>
      match s.phys.mark_used frame 1 with
      | .error e => .error e
      | .ok phys =>
        .ok ⟨phys,
          fun j => if j = Level2.index page then entryMap frame else s.l2 j,
          fun j => if j = Level2.index page then (fun _ => 0) else s.l1 j⟩

/-- The `for (page, frame)` loop of `VirtualMemory::map`: create the covering
table, panic "non-contiguous" if the leaf entry is already used, else map the
frame; `count` pages starting at `page`. -/
def mapLoop : Nat → VMState → Nat → Nat → Except String VMState
  | 0, s, _, _ => .ok s
  | count + 1, s, page, frame =>
    match tableCreate s page with
    | .error e => .error e
    | .ok s1 =>
      if s1.l1 (Level2.index page) (Level1.index page) ≠ 0 then
        .error "non-contiguous"
      else
        mapLoop count
          ⟨s1.phys, s1.l2,
            l1set s1.l1 (Level2.index page) (Level1.index page) (entryMap frame)⟩
          (page + 1) (frame + 1)

/-- Embedding of `VirtualMemory::find_free`: sweep from `page_start` for
`count` consecutive unmapped pages, adding a whole table's worth of pages
when the L2 entry is absent and restarting past any used page.  The fuel
argument bounds the number of loop iterations; running out reports `none`. -/
def findFreeVirt : Nat → VMState → Nat → Nat → Nat → Option Nat
  | 0, _, _, _, _ => none
  | fuel + 1, s, page_start, consecutive_pages, count =>
    if consecutive_pages < count then
      if PAGES_TOTAL < page_start + count then none
      else
        let page := page_start + consecutive_pages
        if s.l2 (Level2.index page) = 0 then
          findFreeVirt fuel s page_start (consecutive_pages + PAGES_PER_TABLE) count
        else if s.l1 (Level2.index page) (Level1.index page) = 0 then
          findFreeVirt fuel s page_start (consecutive_pages + 1) count
        else
          findFreeVirt fuel s (page_start + 1 + consecutive_pages) 0 count
    else some page_start

/-- Embedding of `VirtualMemory::map`: pick a free virtual range, then map
`count` frames into it. -/
def vmMap (s : VMState) (page_start frame_start count fuel : Nat) :
    Except String (Option (Nat × VMState)) :=
  match findFreeVirt fuel s page_start 0 count with
  | none => .ok none
  | some ps =>
    match mapLoop count s ps frame_start with
    | .error e => .error e
    | .ok s1 => .ok (some (ps, s1))

/-- Embedding of `VirtualMemory::allocate_contiguous`: reserve `count`
physical frames, then map them at a free virtual range. -/
def allocate_contiguous (s : VMState) (page_start count fuel : Nat) :
    Except String (Option (Nat × Nat × VMState)) :=
  match s.phys.find_free count with
  | .error e => .error e
  | .ok none => .ok none
  | .ok (some frame_start) =>
    match s.phys.mark_used frame_start count with
    | .error e => .error e
    | .ok phys =>
      match vmMap ⟨phys, s.l2, s.l1⟩ page_start frame_start count fuel with
      | .error e => .error e
      | .ok none => .ok none
      | .ok (some (ps, s1)) => .ok (some (ps, frame_start, s1))

/-- The per-page loop of `VirtualMemory::free`: the absent-table lookup and
the free-entry check both panic "already freed"; otherwise the leaf is
unmapped and its frame returned to the physical allocator. -/
def freeLoop : Nat → VMState → Nat → Except String VMState
  | 0, s, _ => .ok s
  | count + 1, s, page =>
    if s.l2 (Level2.index page) = 0 then .error "already freed"
    else if s.l1 (Level2.index page) (Level1.index page) = 0 then .error "already freed"
    else
      match s.phys.mark_free (s.l1 (Level2.index page) (Level1.index page) >>> 12) 1 with
      | .error e => .error e
      | .ok phys =>
        freeLoop count
          ⟨phys, s.l2, l1set s.l1 (Level2.index page) (Level1.index page) 0⟩
          (page + 1)

/-- Embedding of `VirtualMemory::free`. -/
def vmFree (s : VMState) (page_start count : Nat) : Except String VMState :=
  freeLoop count s page_start

/-- "Table present and leaf entry used" at an explicit index pair. -/
def mappedAt (s : VMState) (i j : Nat) : Prop := s.l2 i ≠ 0 ∧ s.l1 i j ≠ 0

/-- A page is mapped when its covering table is present and its leaf entry is
used. -/
def Mapped (s : VMState) (page : Nat) : Prop :=
  mappedAt s (Level2.index page) (Level1.index page)

/-- State for the C5 counterexample: table 1 absent, table 2 present and
fully mapped. -/
def c5overState : VMState :=
  ⟨⟨⟨[]⟩, 0⟩, fun i => if i = 2 then entryMap 7 else 0,
    fun i _ => if i = 2 then 3 else 0⟩

/-- State for the C5 witness: table 0 present and empty, 32 free frames. -/
def c5state : VMState :=
  ⟨⟨⟨[0]⟩, 32⟩, fun i => if i = 0 then 3 else 0, fun _ _ => 0⟩

/-- State after the first witness allocation. -/
def c5s1 : VMState :=
  match allocate_contiguous c5state 0 1 4 with
  | .ok (some (_, _, s)) => s
  | _ => c5state

/-- State after the second witness allocation. -/
def c5s2 : VMState :=
  match allocate_contiguous c5s1 0 1 4 with
  | .ok (some (_, _, s)) => s
  | _ => c5state

/-- State for the C6 counterexample: no table present, 32 free frames. -/
def c6state : VMState := ⟨⟨⟨[0]⟩, 32⟩, fun _ => 0, fun _ _ => 0⟩

/-- State after the C6 counterexample allocation. -/
def c6s1 : VMState :=
  match allocate_contiguous c6state 0 1 4 with
  | .ok (some (_, _, s)) => s
  | _ => c6state

/-- State for the C6 witness: table 0 present and empty, 32 free frames. -/
def c6wstate : VMState :=
  ⟨⟨⟨[0]⟩, 32⟩, fun i => if i = 0 then 3 else 0, fun _ _ => 0⟩

/-- State after the C6 witness allocation. -/
def c6ws1 : VMState :=
  match allocate_contiguous c6wstate 0 1 4 with
  | .ok (some (_, _, s)) => s
  | _ => c6wstate

/-! ## Theorems -/

theorem wordBits_pos : 0 < wordBits := by decide

theorem ctzAux_spec : ∀ (fuel x : Nat), 0 < x → x < 2 ^ fuel →
    x.testBit (ctzAux fuel x) = true ∧ ∀ j < ctzAux fuel x, x.testBit j = false := by
  intro fuel
  induction fuel with
  | zero => intro x hx hlt; omega
  | succ n ih =>
    intro x hx hlt
    by_cases hodd : x % 2 = 1
    · refine ⟨?_, ?_⟩
      · simp [ctzAux, hodd, Nat.testBit_zero]
      · intro j hj; simp [ctzAux, hodd] at hj
    · have hx2 : 0 < x / 2 := by omega
      have hlt2 : x / 2 < 2 ^ n := by
        have : 2 ^ (n + 1) = 2 ^ n * 2 := by ring
        omega
      obtain ⟨h1, h2⟩ := ih (x / 2) hx2 hlt2
      refine ⟨?_, ?_⟩
      · simpa [ctzAux, hodd, Nat.testBit_succ] using h1
      · intro j hj
        simp only [ctzAux, hodd, if_false] at hj
        match j with
        | 0 => simp [Nat.testBit_zero]; omega
        | j' + 1 =>
          rw [Nat.testBit_succ]
          exact h2 j' (by omega)

theorem ctz_spec {x : Nat} (hx : 0 < x) (hlt : x < 2 ^ wordBits) :
    x.testBit (ctz x) = true ∧ ∀ j < ctz x, x.testBit j = false := by
  unfold ctz
  rw [if_neg (by omega)]
  exact ctzAux_spec wordBits x hx hlt

theorem ctz_lt_wordBits {x : Nat} (hx : 0 < x) (hlt : x < 2 ^ wordBits) :
    ctz x < wordBits := by
  by_contra h
  have hbit := (ctz_spec hx hlt).1
  have : x.testBit (ctz x) = false :=
    Nat.testBit_eq_false_of_lt (lt_of_lt_of_le hlt (Nat.pow_le_pow_right (by omega) (by omega)))
  simp [this] at hbit

theorem log2Aux_spec : ∀ (fuel x : Nat), 0 < x → x < 2 ^ fuel →
    2 ^ log2Aux fuel x ≤ x ∧ x < 2 ^ (log2Aux fuel x + 1) := by
  intro fuel
  induction fuel with
  | zero => intro x hx hlt; omega
  | succ n ih =>
    intro x hx hlt
    by_cases h2 : 2 ≤ x
    · have hx2 : 0 < x / 2 := by omega
      have hlt2 : x / 2 < 2 ^ n := by
        have : 2 ^ (n + 1) = 2 ^ n * 2 := by ring
        omega
      obtain ⟨h1, h2'⟩ := ih (x / 2) hx2 hlt2
      simp only [log2Aux, h2, if_true]
      constructor
      · have : 2 ^ (log2Aux n (x / 2) + 1) = 2 ^ log2Aux n (x / 2) * 2 := by ring
        omega
      · have : 2 ^ (log2Aux n (x / 2) + 1 + 1) = 2 ^ (log2Aux n (x / 2) + 1) * 2 := by ring
        omega
    · simp only [log2Aux, h2, if_false]
      omega

theorem msb_spec {x : Nat} (hx : 0 < x) (hlt : x < 2 ^ wordBits) :
    x.testBit (msb x) = true ∧ ∀ j, msb x < j → x.testBit j = false := by
  obtain ⟨h1, h2⟩ := log2Aux_spec wordBits x hx hlt
  have hmsb : msb x = log2Aux wordBits x := rfl
  constructor
  · rw [Nat.testBit_to_div_mod]
    have hdiv : x / 2 ^ msb x = 1 := by
      apply Nat.div_eq_of_lt_le
      · simpa [hmsb] using h1
      · have h3 : 2 ^ (msb x + 1) = 2 ^ msb x * 2 := by ring
        rw [hmsb] at h3 ⊢
        omega
    simp [hdiv]
  · intro j hj
    refine Nat.testBit_eq_false_of_lt (lt_of_lt_of_le h2 (Nat.pow_le_pow_right (by omega) ?_))
    rw [← hmsb]
    omega

theorem msb_lt_wordBits {x : Nat} (hx : 0 < x) (hlt : x < 2 ^ wordBits) :
    msb x < wordBits := by
  by_contra h
  have hbit := (msb_spec hx hlt).1
  have : x.testBit (msb x) = false :=
    Nat.testBit_eq_false_of_lt (lt_of_lt_of_le hlt (Nat.pow_le_pow_right (by omega) (by omega)))
  simp [this] at hbit

theorem clz_eq {x : Nat} (hx : 0 < x) : clz x = wordBits - (msb x + 1) := by
  unfold clz msb
  rw [if_neg (by omega)]

theorem clz_zero : clz 0 = wordBits := by decide

theorem testBit_all_ones_sub : ∀ (N a i : Nat), a < 2 ^ N → i < N →
    (2 ^ N - 1 - a).testBit i = !a.testBit i := by
  intro N
  induction N with
  | zero => intro a i _ hi; omega
  | succ n ih =>
    intro a i ha hi
    have hpow : 2 ^ (n + 1) = 2 * 2 ^ n := by ring
    match i with
    | 0 =>
      rw [Nat.testBit_zero, Nat.testBit_zero]
      have hm : (2 ^ (n + 1) - 1 - a) % 2 = 1 - a % 2 := by omega
      by_cases h : a % 2 = 1
      · simp [hm, h]
      · have : a % 2 = 0 := by omega
        simp [hm, this]
    | i' + 1 =>
      rw [Nat.testBit_succ, Nat.testBit_succ]
      have hd : (2 ^ (n + 1) - 1 - a) / 2 = 2 ^ n - 1 - a / 2 := by omega
      rw [hd]
      exact ih (a / 2) i' (by omega) (by omega)

theorem mod_two_pow_eq_zero_of_testBit {x k : Nat}
    (h : ∀ j < k, x.testBit j = false) : x % 2 ^ k = 0 := by
  have : ∀ i, (x % 2 ^ k).testBit i = Nat.testBit 0 i := by
    intro i
    rw [Nat.testBit_mod_two_pow, Nat.zero_testBit]
    by_cases hik : i < k
    · simp [hik, h i hik]
    · simp [hik]
  exact Nat.eq_of_testBit_eq this

theorem lowBit_eq {x : Nat} (hx : 0 < x) (hlt : x < 2 ^ wordBits) :
    lowBit x = 2 ^ ctz x := by
  obtain ⟨hbit, hlow⟩ := ctz_spec hx hlt
  have hklt : ctz x < wordBits := ctz_lt_wordBits hx hlt
  have hmod : x % 2 ^ ctz x = 0 := mod_two_pow_eq_zero_of_testBit hlow
  have hmodd : x / 2 ^ ctz x % 2 = 1 := by
    have := hbit
    rwa [Nat.testBit_to_div_mod, decide_eq_true_eq] at this
  have hpos : 0 < 2 ^ ctz x := Nat.pos_pow_of_pos _ (by omega)
  have hxm : x = 2 ^ ctz x * (x / 2 ^ ctz x) := by
    have := Nat.div_add_mod x (2 ^ ctz x)
    omega
  have hwx : wneg x = 2 ^ wordBits - x := by
    unfold wneg
    exact Nat.mod_eq_of_lt (by omega)
  have hsub : 2 ^ wordBits - x = 2 ^ wordBits - 1 - (x - 1) := by omega
  apply Nat.eq_of_testBit_eq
  intro i
  rw [lowBit, Nat.testBit_land, hwx, hsub]
  by_cases hiw : i < wordBits
  · rw [testBit_all_ones_sub wordBits (x - 1) i (by omega) hiw]
    rcases Nat.lt_trichotomy i (ctz x) with hik | hik | hik
    · -- below the lowest set bit: bit of x is 0
      rw [hlow i hik, Nat.testBit_two_pow_of_ne (by omega)]
      simp
    · -- at the lowest set bit
      rw [hik]
      have hx1 : (x - 1).testBit (ctz x) = false := by
        rw [Nat.testBit_to_div_mod, decide_eq_false_iff_not]
        have hdecomp : x - 1 = 2 ^ ctz x * (x / 2 ^ ctz x - 1) + (2 ^ ctz x - 1) := by
          have hq : 0 < x / 2 ^ ctz x := by
            rcases Nat.eq_zero_or_pos (x / 2 ^ ctz x) with h | h
            · rw [h, Nat.mul_zero] at hxm; omega
            · exact h
          have : 2 ^ ctz x * (x / 2 ^ ctz x - 1) + 2 ^ ctz x
              = 2 ^ ctz x * (x / 2 ^ ctz x) := by
            cases Nat.exists_eq_add_of_le hq with
            | intro q hq' =>
              have hsq : Nat.succ 0 + q - 1 = q := by omega
              rw [hq', hsq]
              ring
          omega
        have hdiv : (x - 1) / 2 ^ ctz x = x / 2 ^ ctz x - 1 := by
          rw [hdecomp, Nat.mul_add_div hpos,
            Nat.div_eq_of_lt (show 2 ^ ctz x - 1 < 2 ^ ctz x by omega), Nat.add_zero]
        rw [hdiv]
        omega
      rw [hx1, hbit, Nat.testBit_two_pow_self]
      simp
    · -- above the lowest set bit: x-1 and x agree there
      have hagree : (x - 1).testBit i = x.testBit i := by
        rw [Nat.testBit_to_div_mod, Nat.testBit_to_div_mod]
        have hpi : 0 < 2 ^ i := Nat.pos_pow_of_pos i (by omega)
        have hmodi : x % 2 ^ i ≠ 0 := by
          intro h
          have hdvd : 2 ^ i ∣ x := Nat.dvd_of_mod_eq_zero h
          have h1 : 2 ^ i = 2 ^ ctz x * 2 ^ (i - ctz x) := by
            rw [← Nat.pow_add]
            congr 1
            omega
          have hdvd2 : 2 ^ ctz x * 2 ^ (i - ctz x) ∣ 2 ^ ctz x * (x / 2 ^ ctz x) := by
            rw [← h1, ← hxm]
            exact hdvd
          have h2 : 2 ^ (i - ctz x) ∣ x / 2 ^ ctz x :=
            (Nat.mul_dvd_mul_iff_left hpos).1 hdvd2
          have h3 : (2 : Nat) ∣ x / 2 ^ ctz x := by
            refine dvd_trans ?_ h2
            calc (2 : Nat) = 2 ^ 1 := by ring
            _ ∣ 2 ^ (i - ctz x) := Nat.pow_dvd_pow 2 (by omega)
          omega
        have hdiv : (x - 1) / 2 ^ i = x / 2 ^ i := by
          have h4 := Nat.div_add_mod x (2 ^ i)
          have h6 : x % 2 ^ i < 2 ^ i := Nat.mod_lt x hpi
          have h5 : x - 1 = 2 ^ i * (x / 2 ^ i) + (x % 2 ^ i - 1) := by omega
          rw [h5, Nat.mul_add_div hpi,
            Nat.div_eq_of_lt (show x % 2 ^ i - 1 < 2 ^ i by omega), Nat.add_zero]
        rw [hdiv]
      rw [hagree, Nat.testBit_two_pow_of_ne (by omega)]
      cases hxb : x.testBit i <;> simp [hxb]
  · have h1 : x.testBit i = false :=
      Nat.testBit_eq_false_of_lt (lt_of_lt_of_le hlt (Nat.pow_le_pow_right (by omega) (by omega)))
    rw [h1, Nat.testBit_two_pow_of_ne (by omega)]
    simp

theorem clearLow_testBit {x : Nat} (hx : 0 < x) (hlt : x < 2 ^ wordBits) (i : Nat) :
    (clearLow x).testBit i = (x.testBit i && decide (i ≠ ctz x)) := by
  rw [clearLow, Nat.testBit_xor, lowBit_eq hx hlt]
  by_cases hik : i = ctz x
  · subst hik
    rw [Nat.testBit_two_pow_self, (ctz_spec hx hlt).1]
    simp
  · rw [Nat.testBit_two_pow_of_ne (fun h => hik h.symm)]
    simp [hik]

theorem clearLow_lt {x : Nat} (hx : 0 < x) (hlt : x < 2 ^ wordBits) :
    clearLow x < x := by
  apply Nat.lt_of_testBit (ctz x)
  · rw [clearLow_testBit hx hlt]
    simp
  · exact (ctz_spec hx hlt).1
  · intro j hj
    rw [clearLow_testBit hx hlt]
    simp [Nat.ne_of_gt hj]

theorem clearLow_lt_two_pow {x : Nat} (hx : 0 < x) (hlt : x < 2 ^ wordBits) :
    clearLow x < 2 ^ wordBits := lt_trans (clearLow_lt hx hlt) hlt

theorem bmBit_decomp (blocks : List Nat) (bi j : Nat) (hj : j < wordBits) :
    bmBit blocks (bi * wordBits + j) = (blocks.getD bi 0).testBit j := by
  unfold bmBit
  have hdiv : (bi * wordBits + j) / wordBits = bi := by
    rw [Nat.mul_comm, Nat.mul_add_div (by omega), Nat.div_eq_of_lt hj, Nat.add_zero]
  have hmod : (bi * wordBits + j) % wordBits = j := by
    rw [Nat.mul_comm, Nat.mul_add_mod, Nat.mod_eq_of_lt hj]
  rw [hdiv, hmod]

theorem word_eq_zero_of_bits {x : Nat} (hlt : x < 2 ^ wordBits)
    (h : ∀ j, j < wordBits → x.testBit j = false) : x = 0 := by
  apply Nat.eq_of_testBit_eq
  intro i
  rw [Nat.zero_testBit]
  by_cases hi : i < wordBits
  · exact h i hi
  · exact Nat.testBit_eq_false_of_lt
      (lt_of_lt_of_le hlt (Nat.pow_le_pow_right (by omega) (by omega)))

theorem czInner_spec : ∀ (fuel : Nat) (blocks : List Nat) (bi fits block idx : Nat),
    block ≤ fuel → block < 2 ^ wordBits → 1 ≤ fits →
    (∀ j, j < wordBits → block.testBit j =
      (bmBit blocks (bi * wordBits + j) && decide (idx ≤ bi * wordBits + j))) →
    (∀ t, idx ≤ t → t < bi * wordBits → bmBit blocks t = false) →
    (match czInner fuel bi fits block idx with
    | Sum.inl ((a, b), block', idx') =>
        idx ≤ a ∧ a ≤ b ∧ fits ≤ b - a ∧
        bi * wordBits ≤ b ∧ b < bi * wordBits + wordBits ∧
        bmBit blocks b = true ∧
        (∀ u, a ≤ u → u < b → bmBit blocks u = false) ∧
        idx' = b + 1 ∧ block' < 2 ^ wordBits ∧
        (∀ j, j < wordBits → block'.testBit j =
          (bmBit blocks (bi * wordBits + j) && decide (idx' ≤ bi * wordBits + j))) ∧
        (∀ t, idx ≤ t → t < a → ¬ ValidStart blocks fits t)
    | Sum.inr idxF =>
        idx ≤ idxF ∧
        (∀ t, idx ≤ t → t < idxF → ¬ ValidStart blocks fits t) ∧
        (∀ j, j < wordBits →
          (bmBit blocks (bi * wordBits + j) && decide (idxF ≤ bi * wordBits + j)) = false) ∧
        (idxF = idx ∨ ∃ k, k < wordBits ∧ idxF = bi * wordBits + k + 1 ∧
          bmBit blocks (bi * wordBits + k) = true)) := by
  intro fuel
  induction fuel with
  | zero =>
    intro blocks bi fits block idx hble hblt hfits hchar hzeros
    -- fuel 0 forces block = 0
    have hb0 : block = 0 := by omega
    subst hb0
    refine ⟨Nat.le_refl idx, ?_, ?_, Or.inl rfl⟩
    · intro t h1 h2; omega
    · intro j hj
      have := hchar j hj
      rw [Nat.zero_testBit] at this
      exact this.symm
  | succ n ih =>
    intro blocks bi fits block idx hble hblt hfits hchar hzeros
    by_cases hb0 : block = 0
    · subst hb0
      simp only [czInner, if_pos rfl]
      refine ⟨Nat.le_refl idx, ?_, ?_, Or.inl rfl⟩
      · intro t h1 h2; omega
      · intro j hj
        have := hchar j hj
        rw [Nat.zero_testBit] at this
        exact this.symm
    · have hbpos : 0 < block := by omega
      have hk := ctz_spec hbpos hblt
      have hklt : ctz block < wordBits := ctz_lt_wordBits hbpos hblt
      -- the bit being consumed
      have hone : bmBit blocks (bi * wordBits + ctz block) = true ∧
          idx ≤ bi * wordBits + ctz block := by
        have := hchar (ctz block) hklt
        rw [hk.1] at this
        constructor
        · cases hbm : bmBit blocks (bi * wordBits + ctz block)
          · rw [hbm] at this; simp at this
          · rfl
        · by_contra hcon
          rw [decide_eq_false (by omega)] at this
          simp at this
      -- zeros strictly below the consumed bit inside this word
      have hzero_below : ∀ u, idx ≤ u → u < bi * wordBits + ctz block →
          bmBit blocks u = false := by
        intro u h1 h2
        by_cases hu : u < bi * wordBits
        · exact hzeros u h1 hu
        · have hju : u - bi * wordBits < ctz block := by omega
          have hjw : u - bi * wordBits < wordBits := by omega
          have := hchar (u - bi * wordBits) hjw
          rw [hk.2 (u - bi * wordBits) hju] at this
          have heq : bi * wordBits + (u - bi * wordBits) = u := by omega
          rw [heq] at this
          rw [decide_eq_true (show idx ≤ u by omega)] at this
          cases hbm : bmBit blocks u
          · rfl
          · rw [hbm] at this; simp at this
      -- characterization of the word with the consumed bit cleared
      have hchar' : ∀ j, j < wordBits → (clearLow block).testBit j =
          (bmBit blocks (bi * wordBits + j) &&
            decide (bi * wordBits + ctz block + 1 ≤ bi * wordBits + j)) := by
        intro j hj
        rw [clearLow_testBit hbpos hblt]
        rcases Nat.lt_trichotomy j (ctz block) with hjk | hjk | hjk
        · rw [hk.2 j hjk,
            decide_eq_false (show ¬ (bi * wordBits + ctz block + 1 ≤ bi * wordBits + j) by omega)]
          simp
        · subst hjk
          rw [decide_eq_false (show ¬ (ctz block ≠ ctz block) by simp),
            decide_eq_false
              (show ¬ (bi * wordBits + ctz block + 1 ≤ bi * wordBits + ctz block) by omega)]
          simp
        · rw [hchar j hj,
            decide_eq_true (show j ≠ ctz block by omega),
            decide_eq_true (show idx ≤ bi * wordBits + j by omega),
            decide_eq_true (show bi * wordBits + ctz block + 1 ≤ bi * wordBits + j by omega)]
          simp
      by_cases hemit : fits ≤ bi * wordBits + ctz block - idx
      · -- emission of the gap below the consumed bit
        have hstep : czInner (n + 1) bi fits block idx =
            Sum.inl ((idx, bi * wordBits + ctz block), clearLow block,
              bi * wordBits + ctz block + 1) := by
          simp only [czInner]
          rw [if_neg hb0, if_pos hemit]
        rw [hstep]
        exact ⟨Nat.le_refl idx, by omega, hemit, by omega, by omega, hone.1,
          hzero_below, rfl, clearLow_lt_two_pow hbpos hblt, hchar',
          by intro t h1 h2; omega⟩
      · -- the gap is too small: skip past the consumed bit and continue
        have hstep : czInner (n + 1) bi fits block idx =
            czInner n bi fits (clearLow block) (bi * wordBits + ctz block + 1) := by
          simp only [czInner]
          rw [if_neg hb0, if_neg hemit]
        rw [hstep]
        have hble' : clearLow block ≤ n := by
          have := clearLow_lt hbpos hblt
          omega
        have hzeros' : ∀ t, bi * wordBits + ctz block + 1 ≤ t → t < bi * wordBits →
            bmBit blocks t = false := by
          intro t h1 h2; omega
        have hrec := ih blocks bi fits (clearLow block) (bi * wordBits + ctz block + 1)
          hble' (clearLow_lt_two_pow hbpos hblt) hfits hchar' hzeros'
        -- no valid start can begin at or before the consumed one
        have hnostart : ∀ t, idx ≤ t → t ≤ bi * wordBits + ctz block →
            ¬ ValidStart blocks fits t := by
          intro t h1 h2 hvs
          have hbit := hvs.2 (bi * wordBits + ctz block) h2 (by omega)
          rw [hone.1] at hbit
          exact Bool.noConfusion hbit
        match hres : czInner n bi fits (clearLow block) (bi * wordBits + ctz block + 1) with
        | Sum.inl ((a, b), block', idx') =>
          rw [hres] at hrec
          obtain ⟨i1, i2, i3, i4, i5, i6, i7, i8, i9, i10, i11⟩ := hrec
          refine ⟨by omega, i2, i3, i4, i5, i6, i7, i8, i9, i10, ?_⟩
          intro t h1 h2
          by_cases ht : t ≤ bi * wordBits + ctz block
          · exact hnostart t h1 ht
          · exact i11 t (by omega) h2
        | Sum.inr idxF =>
          rw [hres] at hrec
          obtain ⟨i1, i2, i3, i4⟩ := hrec
          refine ⟨by omega, ?_, i3, ?_⟩
          · intro t h1 h2
            by_cases ht : t ≤ bi * wordBits + ctz block
            · exact hnostart t h1 ht
            · exact i2 t (by omega) h2
          · rcases i4 with h | ⟨k, hk1, hk2, hk3⟩
            · exact Or.inr ⟨ctz block, hklt, h, hone.1⟩
            · exact Or.inr ⟨k, hk1, hk2, hk3⟩

theorem getD_lt_two_pow {blocks : List Nat} (h : ∀ b ∈ blocks, b < 2 ^ wordBits)
    (i : Nat) : blocks.getD i 0 < 2 ^ wordBits := by
  by_cases hi : i < blocks.length
  · rw [List.getD_eq_getElem blocks 0 hi]
    exact h _ (List.getElem_mem hi)
  · rw [List.getD_eq_default blocks 0 (by omega)]
    exact Nat.pos_pow_of_pos _ (by omega)

/-- Re-establishing the invariant after advancing to the next word. -/
theorem czInv_advance {blocks : List Nat} {bi fits idxNew : Nat}
    (hw : ∀ b ∈ blocks, b < 2 ^ wordBits) (hf : 1 ≤ fits) (hbi : bi < blocks.length)
    (hidx : idxNew ≤ (bi + 1) * wordBits)
    (hz : ∀ t, idxNew ≤ t → t < (bi + 1) * wordBits → bmBit blocks t = false)
    (hex : blocks.length = bi + 1 → wordBits * blocks.length < idxNew + fits) :
    CZInv ⟨blocks, bi + 1, blocks.getD (bi + 1) 0, idxNew, fits⟩ := by
  have hchar : ∀ j, j < wordBits → (blocks.getD (bi + 1) 0).testBit j =
      (bmBit blocks ((bi + 1) * wordBits + j) &&
        decide (idxNew ≤ (bi + 1) * wordBits + j)) := by
    intro j hj
    rw [bmBit_decomp blocks (bi + 1) j hj, decide_eq_true (by omega)]
    simp
  have hex2 : blocks.length ≤ bi + 1 → wordBits * blocks.length < idxNew + fits := by
    intro h
    exact hex (by omega)
  exact ⟨hw, hf, show bi + 1 ≤ blocks.length by omega, getD_lt_two_pow hw _,
    hchar, Or.inl hidx, hz, hex2⟩

/-- Re-establishing the invariant after an in-word emission. -/
theorem czInv_same {blocks : List Nat} {bi fits block idxNew : Nat}
    (hw : ∀ b ∈ blocks, b < 2 ^ wordBits) (hf : 1 ≤ fits) (hbi : bi < blocks.length)
    (hbl : block < 2 ^ wordBits)
    (hch : ∀ j, j < wordBits → block.testBit j =
      (bmBit blocks (bi * wordBits + j) && decide (idxNew ≤ bi * wordBits + j)))
    (hib : idxNew ≤ bi * wordBits ∨
      (blocks.getD bi 0 ≠ 0 ∧ idxNew ≤ bi * wordBits + msb (blocks.getD bi 0) + 1))
    (hz : ∀ t, idxNew ≤ t → t < bi * wordBits → bmBit blocks t = false) :
    CZInv ⟨blocks, bi, block, idxNew, fits⟩ := by
  exact ⟨hw, hf, show bi ≤ blocks.length by omega, hbl, hch, hib, hz,
    show blocks.length ≤ bi → wordBits * blocks.length < idxNew + fits from
      fun h => absurd h (by omega)⟩

theorem czNextGo_spec : ∀ (fuel : Nat) (s : ConsecutiveZeros), CZInv s →
    s.blocks.length - s.block_index ≤ fuel → CZStep s (czNextGo fuel s) := by
  intro fuel
  induction fuel with
  | zero =>
    intro s hinv hfuel
    simp only [czNextGo, CZStep]
    intro t ht hvs
    have := hinv.exhausted (by omega)
    exact absurd hvs.1 (by omega)
  | succ n ih =>
    intro s hinv hfuel
    by_cases hbi : s.block_index < s.blocks.length
    · have hWsucc : (s.block_index + 1) * wordBits
          = s.block_index * wordBits + wordBits := by ring
      have hWlen : (s.block_index + 1) * wordBits ≤ wordBits * s.blocks.length := by
        rw [Nat.mul_comm wordBits]
        exact Nat.mul_le_mul_right _ (by omega)
      have hWlen2 : s.blocks.length = s.block_index + 1 →
          wordBits * s.blocks.length = (s.block_index + 1) * wordBits := by
        intro h
        rw [h]
        ring
      simp only [czNextGo]
      rw [if_pos hbi]
      by_cases hA : s.block = 0 ∧ s.fits ≤ (s.block_index + 1) * wordBits - s.index
      · -- first branch: the rest of the current word closes a long-enough run
        rw [if_pos hA]
        obtain ⟨hA1, hA2⟩ := hA
        have hf := hinv.fitsPos
        have hidx : s.index + s.fits ≤ (s.block_index + 1) * wordBits := by omega
        have hzeros : ∀ u, s.index ≤ u → u < (s.block_index + 1) * wordBits →
            bmBit s.blocks u = false := by
          intro u h1 h2
          by_cases hu : u < s.block_index * wordBits
          · exact hinv.zerosBefore u h1 hu
          · have hj : u - s.block_index * wordBits < wordBits := by omega
            have hc := hinv.blockChar (u - s.block_index * wordBits) hj
            rw [hA1, Nat.zero_testBit] at hc
            have heq : s.block_index * wordBits + (u - s.block_index * wordBits) = u := by
              omega
            rw [heq, decide_eq_true (show s.index ≤ u by omega)] at hc
            cases hbm : bmBit s.blocks u
            · rfl
            · rw [hbm] at hc ; simp at hc
        exact ⟨czInv_advance hinv.wordsLt hf hbi (Nat.le_refl _)
            (by intro t h1 h2 ; omega) (by intro h ; rw [hWlen2 h] ; omega),
          rfl, rfl, ⟨by omega, by omega, by omega, hzeros⟩,
          Nat.le_refl _, Nat.le_refl _,
          fun t h1 h2 => absurd (Nat.lt_of_le_of_lt h1 h2) (Nat.lt_irrefl _)⟩
      · -- inner loop, then the tail of the word
        rw [if_neg hA]
        have hin := czInner_spec s.block s.blocks s.block_index s.fits s.block s.index
          (Nat.le_refl _) hinv.blockLt hinv.fitsPos hinv.blockChar hinv.zerosBefore
        match hres : czInner s.block s.block_index s.fits s.block s.index with
        | Sum.inl ((a, b), block', idx') =>
          rw [hres] at hin
          obtain ⟨i1, i2, i3, i4, i5, i6, i7, i8, i9, i10, i11⟩ := hin
          have horig : (s.blocks.getD s.block_index 0).testBit (b - s.block_index * wordBits)
              = true := by
            rw [← bmBit_decomp s.blocks s.block_index (b - s.block_index * wordBits) (by omega)]
            have heq : s.block_index * wordBits + (b - s.block_index * wordBits) = b := by
              omega
            rw [heq]
            exact i6
          have horig0 : s.blocks.getD s.block_index 0 ≠ 0 := by
            intro h
            rw [h, Nat.zero_testBit] at horig
            exact Bool.noConfusion horig
          have hblt : s.blocks.getD s.block_index 0 < 2 ^ wordBits :=
            getD_lt_two_pow hinv.wordsLt _
          have hkmsb : b - s.block_index * wordBits ≤ msb (s.blocks.getD s.block_index 0) := by
            by_contra h
            rw [(msb_spec (by omega) hblt).2 _ (by omega)] at horig
            exact Bool.noConfusion horig
          exact ⟨czInv_same hinv.wordsLt hinv.fitsPos hbi i9 i10
              (Or.inr ⟨horig0, by omega⟩) (fun t h1 h2 => absurd h1 (by omega)),
            rfl, rfl,
            ⟨i3, i2, show b ≤ wordBits * s.blocks.length by omega, i7⟩,
            i1, show b ≤ idx' by omega, i11⟩
        | Sum.inr idxF =>
          rw [hres] at hin
          obtain ⟨i1, i2, i3, i4⟩ := hin
          have hblt : s.blocks.getD s.block_index 0 < 2 ^ wordBits :=
            getD_lt_two_pow hinv.wordsLt _
          -- bounds on the final scan position
          have hub : idxF ≤ (s.block_index + 1) * wordBits ∧
              (s.blocks.getD s.block_index 0 ≠ 0 →
                idxF ≤ s.block_index * wordBits + msb (s.blocks.getD s.block_index 0) + 1) ∧
              (s.blocks.getD s.block_index 0 = 0 → idxF ≤ s.block_index * wordBits) := by
            rcases i4 with h | ⟨k, hk1, hk2, hk3⟩
            · subst h
              rcases hinv.idxBound with hle | ⟨h0, hle⟩
              · refine ⟨by omega, ?_, fun _ => hle⟩
                intro h0
                have hm : msb (s.blocks.getD s.block_index 0) < wordBits :=
                  msb_lt_wordBits (by omega) hblt
                omega
              · have hm : msb (s.blocks.getD s.block_index 0) < wordBits :=
                  msb_lt_wordBits (by omega) hblt
                exact ⟨by omega, fun _ => hle, fun h => absurd h h0⟩
            · have horig : (s.blocks.getD s.block_index 0).testBit k = true := by
                rw [← bmBit_decomp s.blocks s.block_index k hk1]
                exact hk3
              have horig0 : s.blocks.getD s.block_index 0 ≠ 0 := by
                intro h
                rw [h, Nat.zero_testBit] at horig
                exact Bool.noConfusion horig
              have hkm : k ≤ msb (s.blocks.getD s.block_index 0) := by
                by_contra h
                rw [(msb_spec (by omega) hblt).2 _ (by omega)] at horig
                exact Bool.noConfusion horig
              have hm : msb (s.blocks.getD s.block_index 0) < wordBits :=
                msb_lt_wordBits (by omega) hblt
              exact ⟨by omega, fun _ => by omega, fun h => absurd h horig0⟩
          have hlb : s.blocks.getD s.block_index 0 ≠ 0 →
              s.block_index * wordBits + msb (s.blocks.getD s.block_index 0) < idxF := by
            intro h0
            have hm : msb (s.blocks.getD s.block_index 0) < wordBits :=
              msb_lt_wordBits (by omega) hblt
            have hc := i3 (msb (s.blocks.getD s.block_index 0)) hm
            rw [bmBit_decomp s.blocks s.block_index _ hm,
              (msb_spec (by omega) hblt).1] at hc
            by_contra h
            rw [decide_eq_true (by omega)] at hc
            simp at hc
          -- zeros of the tail of the word
          have htail : ∀ u, idxF ≤ u → u < (s.block_index + 1) * wordBits →
              bmBit s.blocks u = false := by
            intro u h1 h2
            by_cases hu : u < s.block_index * wordBits
            · exact hinv.zerosBefore u (by omega) hu
            · have hj : u - s.block_index * wordBits < wordBits := by omega
              have hc := i3 (u - s.block_index * wordBits) hj
              have heq : s.block_index * wordBits + (u - s.block_index * wordBits) = u := by
                omega
              rw [heq, decide_eq_true (show idxF ≤ u by omega)] at hc
              cases hbm : bmBit s.blocks u
              · rfl
              · rw [hbm] at hc ; simp at hc
          -- facts used when the whole word is zero
          have hword0 : s.blocks.getD s.block_index 0 = 0 →
              s.block = 0 ∧ idxF = s.index := by
            intro h0
            constructor
            · apply word_eq_zero_of_bits hinv.blockLt
              intro j hj
              rw [hinv.blockChar j hj, bmBit_decomp s.blocks s.block_index j hj, h0,
                Nat.zero_testBit]
              simp
            · rcases i4 with h | ⟨k, hk1, hk2, hk3⟩
              · exact h
              · rw [bmBit_decomp s.blocks s.block_index k hk1, h0,
                  Nat.zero_testBit] at hk3
                exact Bool.noConfusion hk3
          show CZStep s
            (if s.fits ≤ idxF + clz (s.blocks.getD s.block_index 0) - idxF then
              some ((idxF, idxF + clz (s.blocks.getD s.block_index 0)),
                ⟨s.blocks, s.block_index + 1, s.blocks.getD (s.block_index + 1) 0,
                  idxF + clz (s.blocks.getD s.block_index 0), s.fits⟩)
            else czNextGo n ⟨s.blocks, s.block_index + 1,
              s.blocks.getD (s.block_index + 1) 0, idxF, s.fits⟩)
          by_cases hemit : s.fits ≤ idxF + clz (s.blocks.getD s.block_index 0) - idxF
          · rw [if_pos hemit]
            -- emission of the tail; only reachable with a nonzero word
            have horig0 : s.blocks.getD s.block_index 0 ≠ 0 := by
              intro h0
              obtain ⟨hbz, hidxF⟩ := hword0 h0
              rw [h0, clz_zero] at hemit
              have hle : idxF ≤ s.block_index * wordBits := (hub.2.2) h0
              exact hA ⟨hbz, by omega⟩
            have hm : msb (s.blocks.getD s.block_index 0) < wordBits :=
              msb_lt_wordBits (by omega) hblt
            have hidxF : idxF = s.block_index * wordBits +
                msb (s.blocks.getD s.block_index 0) + 1 := by
              have h1 := hub.2.1 horig0
              have h2 := hlb horig0
              omega
            have hclz : clz (s.blocks.getD s.block_index 0) =
                wordBits - (msb (s.blocks.getD s.block_index 0) + 1) :=
              clz_eq (by omega)
            have hnext : idxF + clz (s.blocks.getD s.block_index 0) =
                (s.block_index + 1) * wordBits := by
              rw [hidxF, hclz]
              omega
            have hf := hinv.fitsPos
            exact ⟨czInv_advance hinv.wordsLt hinv.fitsPos hbi
                (show idxF + clz (s.blocks.getD s.block_index 0) ≤
                  (s.block_index + 1) * wordBits by omega)
                (show ∀ t, idxF + clz (s.blocks.getD s.block_index 0) ≤ t →
                    t < (s.block_index + 1) * wordBits → bmBit s.blocks t = false from
                  fun t h1 h2 => htail t (by omega) h2)
                (show s.blocks.length = s.block_index + 1 →
                    wordBits * s.blocks.length <
                      idxF + clz (s.blocks.getD s.block_index 0) + s.fits from
                  fun h => by rw [hWlen2 h] ; omega),
              rfl, rfl,
              ⟨hemit, Nat.le_add_right _ _,
                show idxF + clz (s.blocks.getD s.block_index 0) ≤
                  wordBits * s.blocks.length by omega,
                show ∀ u, idxF ≤ u → u < idxF + clz (s.blocks.getD s.block_index 0) →
                    bmBit s.blocks u = false from
                  fun u h1 h2 => htail u h1 (by omega)⟩,
              i1, Nat.le_refl _, i2⟩
          · rw [if_neg hemit]
            -- advance to the next word without emitting
            have hexh : s.blocks.length = s.block_index + 1 →
                wordBits * s.blocks.length < idxF + s.fits := by
              intro hlen
              rw [hWlen2 hlen]
              by_cases h0 : s.blocks.getD s.block_index 0 = 0
              · obtain ⟨hbz, hidxF⟩ := hword0 h0
                have hfail : ¬ s.fits ≤ (s.block_index + 1) * wordBits - s.index :=
                  fun hc => hA ⟨hbz, hc⟩
                have hle : idxF ≤ s.block_index * wordBits := (hub.2.2) h0
                omega
              · have hm : msb (s.blocks.getD s.block_index 0) < wordBits :=
                  msb_lt_wordBits (by omega) hblt
                have h1 := hlb h0
                have hclz : clz (s.blocks.getD s.block_index 0) =
                    wordBits - (msb (s.blocks.getD s.block_index 0) + 1) :=
                  clz_eq (by omega)
                omega
            have hinv2 : CZInv ⟨s.blocks, s.block_index + 1,
                s.blocks.getD (s.block_index + 1) 0, idxF, s.fits⟩ :=
              czInv_advance hinv.wordsLt hinv.fitsPos hbi hub.1 htail hexh
            have hres2 := ih ⟨s.blocks, s.block_index + 1,
                s.blocks.getD (s.block_index + 1) 0, idxF, s.fits⟩ hinv2
              (show s.blocks.length - (s.block_index + 1) ≤ n by clear i4 ; omega)
            simp only [CZStep] at hres2 ⊢
            match hgo : czNextGo n ⟨s.blocks, s.block_index + 1,
                s.blocks.getD (s.block_index + 1) 0, idxF, s.fits⟩ with
            | none =>
              rw [hgo] at hres2
              intro t ht hvs
              by_cases htF : t < idxF
              · exact i2 t ht htF hvs
              · exact hres2 t (show idxF ≤ t by omega) hvs
            | some (r, s2) =>
              rw [hgo] at hres2
              obtain ⟨j1, j2, j3, j4, j5, j6, j7⟩ := hres2
              refine ⟨j1, j2, j3, j4, le_trans (show s.index ≤ idxF from i1) j5, j6, ?_⟩
              intro t ht htr
              by_cases htF : t < idxF
              · exact i2 t ht htF
              · exact j7 t (show idxF ≤ t by omega) htr
    · simp only [czNextGo]
      rw [if_neg hbi]
      intro t ht hvs
      have := hinv.exhausted (by omega)
      exact absurd hvs.1 (by omega)

theorem czNext_spec (s : ConsecutiveZeros) (hinv : CZInv s) : CZStep s (czNext s) :=
  czNextGo_spec _ s hinv (Nat.le_refl _)

theorem czInv_init {blocks rest : List Nat} {b0 fits : Nat}
    (hb : blocks = b0 :: rest) (hw : ∀ x ∈ blocks, x < 2 ^ wordBits) (hf : 1 ≤ fits) :
    CZInv ⟨blocks, 0, b0, 0, fits⟩ := by
  have hchar : ∀ j, j < wordBits → b0.testBit j =
      (bmBit blocks (0 * wordBits + j) && decide ((0 : Nat) ≤ 0 * wordBits + j)) := by
    intro j hj
    rw [bmBit_decomp blocks 0 j hj, hb, decide_eq_true (Nat.zero_le _), Bool.and_true]
    rfl
  exact ⟨hw, hf, show (0 : Nat) ≤ blocks.length by omega,
    hw b0 (by rw [hb] ; exact List.mem_cons_self b0 rest), hchar,
    Or.inl (show (0 : Nat) ≤ 0 * wordBits by omega),
    show ∀ t, (0 : Nat) ≤ t → t < 0 * wordBits → bmBit blocks t = false from
      fun t h1 h2 => absurd h2 (by omega),
    show blocks.length ≤ 0 → wordBits * blocks.length < 0 + fits from
      fun h => absurd h (by rw [hb] ; simp)⟩

theorem consecutive_zeros_inv {b : Bitmap} {fits : Nat} {s : ConsecutiveZeros}
    (hw : ∀ x ∈ b.blocks, x < 2 ^ wordBits)
    (h : b.consecutive_zeros fits = .ok s) :
    CZInv s ∧ s.blocks = b.blocks ∧ s.fits = fits ∧ s.index = 0 := by
  unfold Bitmap.consecutive_zeros at h
  by_cases hf : fits = 0
  · rw [if_pos hf] at h
    exact absurd h (by simp)
  · rw [if_neg hf] at h
    match hb : b.blocks with
    | [] =>
      rw [hb] at h
      exact absurd h (by simp)
    | b0 :: rest =>
      rw [hb] at h
      simp only [Except.ok.injEq] at h
      subst h
      exact ⟨czInv_init rfl (hb ▸ hw) (by omega), rfl, rfl, rfl⟩

/-- All ranges yielded by the iterator from an invariant state are sound,
start at or after the scan position, and have non-decreasing starts. -/
theorem czRuns_spec : ∀ (fuel : Nat) (s : ConsecutiveZeros), CZInv s →
    (∀ r ∈ czRuns fuel s, CZOk s.blocks s.fits r ∧ s.index ≤ r.1) ∧
    List.Chain' (fun r r' : Nat × Nat => r.1 ≤ r'.1) (czRuns fuel s) := by
  intro fuel
  induction fuel with
  | zero =>
    intro s hinv
    exact ⟨by intro r hr ; simp [czRuns] at hr, by simp [czRuns]⟩
  | succ n ih =>
    intro s hinv
    have hstep := czNext_spec s hinv
    match hres : czNext s with
    | none =>
      simp only [czRuns, hres]
      exact ⟨by intro r hr ; simp at hr, by simp⟩
    | some (r, s') =>
      rw [hres] at hstep
      obtain ⟨j1, j2, j3, j4, j5, j6, j7⟩ := hstep
      obtain ⟨ihall, ihchain⟩ := ih s' j1
      simp only [czRuns, hres]
      constructor
      · intro r2 hr2
        rcases List.mem_cons.1 hr2 with h | h
        · subst h
          exact ⟨j4, j5⟩
        · obtain ⟨hok, hidx⟩ := ihall r2 h
          rw [j2, j3] at hok
          have hr12 := j4.2.1
          exact ⟨hok, by omega⟩
      · rw [List.chain'_cons']
        refine ⟨?_, ihchain⟩
        intro r2 hr2
        have hmem : r2 ∈ czRuns n s' := List.mem_of_mem_head? hr2
        obtain ⟨hok, hidx⟩ := ihall r2 hmem
        have hr12 := j4.2.1
        omega

/-- Panic-freedom and soundness of `find_free` from any allocator state whose
free count does not exceed the bitmap capacity: it returns without panicking;
`None` exactly when the free count is short or no long-enough run exists; and
a returned start is the least start of a run of `count` free frames. -/
theorem find_free_spec (pm : PhysicalMemory) (count : Nat) (hn : 1 ≤ count)
    (hw : ∀ x ∈ pm.used.blocks, x < 2 ^ wordBits)
    (hfree : pm.free ≤ wordBits * pm.used.blocks.length) :
    ∃ r, pm.find_free count = .ok r ∧
      (r = none ↔ pm.free < count ∨ ¬ ∃ t, ValidStart pm.used.blocks count t) ∧
      (∀ a, r = some a → ValidStart pm.used.blocks count a ∧
        ∀ t, t < a → ¬ ValidStart pm.used.blocks count t) := by
  unfold PhysicalMemory.find_free
  by_cases hlt : pm.free < count
  · rw [if_pos hlt]
    exact ⟨none, rfl, by simp [hlt], by intro a h ; exact absurd h (by simp)⟩
  · rw [if_neg hlt]
    have hlen : pm.used.blocks ≠ [] := by
      intro h
      rw [h] at hfree
      simp at hfree
      omega
    have hctor : ∃ s0, pm.used.consecutive_zeros count = .ok s0 := by
      unfold Bitmap.consecutive_zeros
      rw [if_neg (by omega)]
      match hb : pm.used.blocks with
      | [] => exact absurd hb hlen
      | b0 :: rest => exact ⟨_, rfl⟩
    obtain ⟨s0, hs0⟩ := hctor
    obtain ⟨hinv, hblocks, hfits, hidx⟩ := consecutive_zeros_inv hw hs0
    rw [hs0]
    have hstep := czNext_spec s0 hinv
    match hres : czNext s0 with
    | none =>
      rw [hres] at hstep
      have hno : ¬ ∃ t, ValidStart pm.used.blocks count t := by
        intro ⟨t, hvs⟩
        exact hstep t (by omega) (by rw [hblocks, hfits] ; exact hvs)
      refine ⟨none, ?_, iff_of_true rfl (Or.inr hno), ?_⟩
      · show Except.ok ((czNext s0).map (fun x => x.1.1)) = Except.ok none
        rw [hres]
        rfl
      · intro a ha
        exact absurd ha (by simp)
    | some (rg, s1) =>
      rw [hres] at hstep
      obtain ⟨j1, j2, j3, j4, j5, j6, j7⟩ := hstep
      rw [hblocks, hfits] at j4 j7
      have hvs : ValidStart pm.used.blocks count rg.1 := by
        obtain ⟨o1, o2, o3, o4⟩ := j4
        exact ⟨by omega, fun u h1 h2 => o4 u h1 (by omega)⟩
      refine ⟨some rg.1, ?_, ?_, ?_⟩
      · show Except.ok ((czNext s0).map (fun x => x.1.1)) = Except.ok (some rg.1)
        rw [hres]
        rfl
      · exact iff_of_false (by simp)
          (fun h => h.elim (fun h1 => hlt h1) (fun h2 => h2 ⟨rg.1, hvs⟩))
      · intro a ha
        have haeq : rg.1 = a := by
          injection ha
        subst haeq
        exact ⟨hvs, fun t ht => j7 t (by omega) ht⟩

/-- C3: for every bitmap `b` (words below `2 ^ wordBits`) and every `k ≥ 1`,
every range `[a, b)` yielded by the `consecutive_zeros(k)` iterator has length
at least `k`, contains only zero bits of the bitmap, and successive yielded
ranges have non-decreasing start indices (stated for every number `fuel` of
`next()` calls). -/
theorem c3_consecutive_zeros_runs (b : Bitmap) (k : Nat) (s0 : ConsecutiveZeros)
    (hw : ∀ x ∈ b.blocks, x < 2 ^ wordBits) (hk : 1 ≤ k)
    (h : b.consecutive_zeros k = .ok s0) (fuel : Nat) :
    (∀ r ∈ czRuns fuel s0, k ≤ r.2 - r.1 ∧
      ∀ i, r.1 ≤ i → i < r.2 → bmBit b.blocks i = false) ∧
    List.Chain' (fun r r' : Nat × Nat => r.1 ≤ r'.1) (czRuns fuel s0) := by
  obtain ⟨hinv, hblocks, hfits, hidx⟩ := consecutive_zeros_inv hw h
  obtain ⟨hall, hchain⟩ := czRuns_spec fuel s0 hinv
  refine ⟨?_, hchain⟩
  intro r hr
  obtain ⟨⟨o1, o2, o3, o4⟩, _⟩ := hall r hr
  rw [hblocks] at o4
  rw [hfits] at o1
  exact ⟨o1, o4⟩

/-- Witness for C3 on the bitmap `[18, 0]` (ones at bit indices 1 and 4)
with `k = 2`. -/
theorem c3_witness :
    ((Bitmap.mk [18, 0]).consecutive_zeros 2 = .ok ⟨[18, 0], 0, 18, 0, 2⟩) ∧
    ((∀ r ∈ czRuns 4 ⟨[18, 0], 0, 18, 0, 2⟩, 2 ≤ r.2 - r.1 ∧
      ∀ i, r.1 ≤ i → i < r.2 → bmBit (Bitmap.mk [18, 0]).blocks i = false) ∧
    List.Chain' (fun r r' : Nat × Nat => r.1 ≤ r'.1)
      (czRuns 4 ⟨[18, 0], 0, 18, 0, 2⟩)) :=
  ⟨rfl, c3_consecutive_zeros_runs ⟨[18, 0]⟩ 2 ⟨[18, 0], 0, 18, 0, 2⟩ (by decide)
    (by decide) rfl 4⟩

/-- C4: on every allocator state whose free-count shadow does not exceed the
bitmap capacity (the data-model invariant) and every `n ≥ 1`, `find_free(n)`
returns without panicking; the result is `None` exactly when
`free_count < n` or no run of `n` consecutive zero bits exists; and a
returned start is the first (smallest) start index of a run of at least `n`
zero bits.  The embedding of `find_free` is a pure function of the allocator
state (the Rust body performs no writes), so the bitmap and free count are
unchanged by construction. -/
theorem c4_find_free_first_fit (pm : PhysicalMemory) (n : Nat) (hn : 1 ≤ n)
    (hw : ∀ x ∈ pm.used.blocks, x < 2 ^ wordBits)
    (hfree : pm.free ≤ wordBits * pm.used.blocks.length) :
    ∃ r, pm.find_free n = .ok r ∧
      (r = none ↔ pm.free < n ∨ ¬ ∃ t, ValidStart pm.used.blocks n t) ∧
      (∀ a, r = some a → ValidStart pm.used.blocks n a ∧
        ∀ t, t < a → ¬ ValidStart pm.used.blocks n t) :=
  find_free_spec pm n hn hw hfree

/-- Witness for C4 on the allocator state with bitmap `[18, 0]` and free
count 60. -/
theorem c4_witness :
    (∀ x ∈ (Bitmap.mk [18, 0]).blocks, x < 2 ^ wordBits) ∧
    ∃ r, (PhysicalMemory.mk ⟨[18, 0]⟩ 60).find_free 2 = .ok r ∧
      (r = none ↔ (PhysicalMemory.mk ⟨[18, 0]⟩ 60).free < 2 ∨
        ¬ ∃ t, ValidStart (PhysicalMemory.mk ⟨[18, 0]⟩ 60).used.blocks 2 t) ∧
      (∀ a, r = some a →
        ValidStart (PhysicalMemory.mk ⟨[18, 0]⟩ 60).used.blocks 2 a ∧
        ∀ t, t < a → ¬ ValidStart (PhysicalMemory.mk ⟨[18, 0]⟩ 60).used.blocks 2 t) :=
  ⟨by decide, c4_find_free_first_fit ⟨⟨[18, 0]⟩, 60⟩ 2 (by decide) (by decide) (by decide)⟩

/-- C10: `find_free(n)` on the pristine static allocator state (zero-length
bitmap, free count 0) returns `Ok None` for every `n ≥ 1`: the
`free < count` guard returns before the `consecutive_zeros` constructor, so
the constructor's unconditional out-of-bounds read of word 0 (second
conjunct: on the empty bitmap it would panic) is unreachable. -/
theorem c10_find_free_initial (n : Nat) (hn : 1 ≤ n) :
    physMemStatic.find_free n = .ok none ∧
    (Bitmap.mk []).consecutive_zeros n =
      .error "index out of bounds: the len is 0 but the index is 0" := by
  constructor
  · unfold PhysicalMemory.find_free
    rw [if_pos (show physMemStatic.free < n from hn)]
  · unfold Bitmap.consecutive_zeros
    rw [if_neg (by omega)]

/-- Witness for C10 at `n = 1`. -/
theorem c10_witness :
    1 ≤ 1 ∧ (physMemStatic.find_free 1 = .ok none ∧
      (Bitmap.mk []).consecutive_zeros 1 =
        .error "index out of bounds: the len is 0 but the index is 0") :=
  ⟨by decide, c10_find_free_initial 1 (by decide)⟩

/-! ## Correctness of `Masks` and the range operations -/

theorem wordMax_testBit (t : Nat) : wordMax.testBit t = decide (t < wordBits) := by
  unfold wordMax
  by_cases ht : t < wordBits
  · have h0 : (0 : Nat) < 2 ^ wordBits := Nat.pos_pow_of_pos _ (by omega)
    have := testBit_all_ones_sub wordBits 0 t h0 ht
    rw [Nat.sub_zero] at this
    rw [this, Nat.zero_testBit, decide_eq_true ht]
    rfl
  · rw [decide_eq_false ht]
    refine Nat.testBit_eq_false_of_lt ?_
    calc 2 ^ wordBits - 1 < 2 ^ wordBits := by
          have : (0 : Nat) < 2 ^ wordBits := Nat.pos_pow_of_pos _ (by omega)
          omega
    _ ≤ 2 ^ t := Nat.pow_le_pow_right (by omega) (by omega)

theorem first_mask_testBit (start j : Nat) :
    ((wordMax <<< (start % wordBits)) % 2 ^ wordBits).testBit j
      = decide (start % wordBits ≤ j ∧ j < wordBits) := by
  rw [Nat.testBit_mod_two_pow, Nat.testBit_shiftLeft, wordMax_testBit]
  by_cases h1 : j < wordBits
  · by_cases h2 : start % wordBits ≤ j
    · rw [decide_eq_true h1, decide_eq_true (show j ≥ start % wordBits from h2),
        decide_eq_true (show j - start % wordBits < wordBits by omega),
        decide_eq_true (show start % wordBits ≤ j ∧ j < wordBits from ⟨h2, h1⟩)]
      rfl
    · rw [decide_eq_false (show ¬ j ≥ start % wordBits from h2),
        decide_eq_false (show ¬ (start % wordBits ≤ j ∧ j < wordBits) from
          fun h => h2 h.1)]
      simp
  · rw [decide_eq_false h1,
      decide_eq_false (show ¬ (start % wordBits ≤ j ∧ j < wordBits) from
        fun h => h1 h.2)]
    simp

theorem last_mask_testBit (stop j : Nat) :
    ((wordMax >>> 1) >>> (wordBits - stop % wordBits - 1)).testBit j
      = decide (j < stop % wordBits) := by
  rw [Nat.testBit_shiftRight, Nat.testBit_shiftRight, wordMax_testBit]
  have he : stop % wordBits < wordBits := Nat.mod_lt _ wordBits_pos
  by_cases h : j < stop % wordBits
  · rw [decide_eq_true h, decide_eq_true (by omega)]
  · rw [decide_eq_false h, decide_eq_false (by omega)]

theorem masksGo_indices : ∀ (fuel fi fm li lm : Nat),
    List.Pairwise (fun p q : Nat × Nat => p.1 < q.1) (masksGo fuel fi fm li lm) ∧
    ∀ p ∈ masksGo fuel fi fm li lm, fi ≤ p.1 := by
  intro fuel
  induction fuel with
  | zero => intro fi fm li lm ; exact ⟨by simp [masksGo], by simp [masksGo]⟩
  | succ n ih =>
    intro fi fm li lm
    simp only [masksGo]
    by_cases h1 : fi < li
    · rw [if_pos h1]
      obtain ⟨ihp, ihge⟩ := ih (fi + 1) wordMax li lm
      constructor
      · rw [List.pairwise_cons]
        refine ⟨?_, ihp⟩
        intro p hp
        have := ihge p hp
        omega
      · intro p hp
        rcases List.mem_cons.1 hp with h | h
        · subst h ; exact Nat.le_refl _
        · have := ihge p h ; omega
    · rw [if_neg h1]
      by_cases h2 : fi = li
      · rw [if_pos h2]
        by_cases h3 : fm &&& lm = 0
        · rw [if_pos h3] ; exact ⟨by simp, by simp⟩
        · rw [if_neg h3]
          refine ⟨by simp, ?_⟩
          intro p hp
          simp only [List.mem_singleton] at hp
          subst hp
          exact Nat.le_refl _
      · rw [if_neg h2] ; exact ⟨by simp, by simp⟩

theorem masksGo_bits : ∀ (fuel fi fm li lm start stop : Nat),
    (∀ j, fm.testBit j = true → j < wordBits ∧ start ≤ fi * wordBits + j) →
    (∀ j, lm.testBit j = true → j < wordBits ∧ li * wordBits + j < stop) →
    li * wordBits ≤ stop →
    start ≤ fi * wordBits + wordBits →
    fm ≠ 0 →
    ∀ p ∈ masksGo fuel fi fm li lm, p.2 ≠ 0 ∧ p.1 ≤ li ∧
      ∀ j, p.2.testBit j = true →
        j < wordBits ∧ start ≤ p.1 * wordBits + j ∧ p.1 * wordBits + j < stop := by
  intro fuel
  induction fuel with
  | zero => intro fi fm li lm start stop _ _ _ _ _ p hp ; simp [masksGo] at hp
  | succ n ih =>
    intro fi fm li lm start stop hfm hlm hli hstart hfm0
    simp only [masksGo]
    by_cases h1 : fi < li
    · rw [if_pos h1]
      intro p hp
      rcases List.mem_cons.1 hp with h | h
      · subst h
        refine ⟨hfm0, show fi ≤ li by omega, ?_⟩
        intro j hj
        have hj2 : fm.testBit j = true := hj
        obtain ⟨hjw, hjs⟩ := hfm j hj2
        refine ⟨hjw, show start ≤ fi * wordBits + j from hjs,
          show fi * wordBits + j < stop from ?_⟩
        have h4 : (fi + 1) * wordBits ≤ li * wordBits :=
          Nat.mul_le_mul_right _ (by omega)
        have h2 : fi * wordBits + j < (fi + 1) * wordBits := by
          have : (fi + 1) * wordBits = fi * wordBits + wordBits := by ring
          omega
        omega
      · refine ih (fi + 1) wordMax li lm start stop ?_ hlm hli ?_ ?_ p h
        · intro j hj
          rw [wordMax_testBit, decide_eq_true_eq] at hj
          have : (fi + 1) * wordBits = fi * wordBits + wordBits := by ring
          exact ⟨hj, by omega⟩
        · have h2 : (fi + 1) * wordBits = fi * wordBits + wordBits := by ring
          have h3 : (fi + 1) * wordBits + wordBits = fi * wordBits + wordBits
              + wordBits := by ring
          omega
        · decide
    · rw [if_neg h1]
      by_cases h2 : fi = li
      · rw [if_pos h2]
        by_cases h3 : fm &&& lm = 0
        · rw [if_pos h3] ; intro p hp ; simp at hp
        · rw [if_neg h3]
          intro p hp
          simp only [List.mem_singleton] at hp
          subst hp
          refine ⟨h3, show fi ≤ li by omega, ?_⟩
          intro j hj
          have hj2 : (fm &&& lm).testBit j = true := hj
          rw [Nat.testBit_land, Bool.and_eq_true] at hj2
          obtain ⟨hjf, hjl⟩ := hj2
          obtain ⟨hjw, hjs⟩ := hfm j hjf
          obtain ⟨_, hje⟩ := hlm j hjl
          refine ⟨hjw, show start ≤ fi * wordBits + j from hjs,
            show fi * wordBits + j < stop from by rw [h2] ; exact hje⟩
      · rw [if_neg h2] ; intro p hp ; simp at hp

theorem applyMasks_length (f : Nat → Nat → Nat) :
    ∀ (ms : List (Nat × Nat)) (blocks : List Nat),
      (applyMasks f blocks ms).length = blocks.length := by
  intro ms
  induction ms with
  | nil => intro blocks ; rfl
  | cons p rest ih =>
    intro blocks
    match p with
    | (i, m) =>
      simp only [applyMasks]
      rw [ih, List.length_set]

theorem applyMasks_getD_not_mem (f : Nat → Nat → Nat) :
    ∀ (ms : List (Nat × Nat)) (blocks : List Nat) (i : Nat),
      (∀ m, (i, m) ∉ ms) →
      (applyMasks f blocks ms).getD i 0 = blocks.getD i 0 := by
  intro ms
  induction ms with
  | nil => intro blocks i _ ; rfl
  | cons p rest ih =>
    intro blocks i hnm
    match p with
    | (j, m) =>
      have hne : j ≠ i := by
        intro h
        exact hnm m (by rw [h] ; exact List.mem_cons_self _ _)
      simp only [applyMasks]
      rw [ih _ i (fun m' hm' => hnm m' (List.mem_cons_of_mem _ hm')),
        List.getD_eq_getElem?_getD, List.getElem?_set_ne hne,
        ← List.getD_eq_getElem?_getD]

theorem applyMasks_getD_mem (f : Nat → Nat → Nat) :
    ∀ (ms : List (Nat × Nat)) (blocks : List Nat) (i m : Nat),
      List.Pairwise (fun p q : Nat × Nat => p.1 < q.1) ms →
      (i, m) ∈ ms → i < blocks.length →
      (applyMasks f blocks ms).getD i 0 = f (blocks.getD i 0) m := by
  intro ms
  induction ms with
  | nil => intro blocks i m _ hm ; simp at hm
  | cons p rest ih =>
    intro blocks i m hpw hm hlen
    match p with
    | (j, m0) =>
      rcases List.mem_cons.1 hm with h | h
      · -- the head pair is (i, m)
        cases h
        simp only [applyMasks]
        have hnm : ∀ m', (i, m') ∉ rest := by
          intro m' hm'
          have := (List.pairwise_cons.1 hpw).1 (i, m') hm'
          simp at this
        rw [applyMasks_getD_not_mem f rest _ i hnm,
          List.getD_eq_getElem?_getD, List.getElem?_set_self hlen]
        rfl
      · -- the pair lives in the tail
        have hji : j ≠ i := by
          have := (List.pairwise_cons.1 hpw).1 (i, m) h
          simp at this
          omega
        simp only [applyMasks]
        rw [ih _ i m (List.pairwise_cons.1 hpw).2 h (by rw [List.length_set] ; exact hlen),
          List.getD_eq_getElem?_getD, List.getElem?_set_ne hji,
          ← List.getD_eq_getElem?_getD]

/-- `Masks::new` on a valid half-open range: it succeeds, its word indices
are strictly increasing, and every mask bit lies inside the range. -/
theorem masksNew_spec (start stop len : Nat) (h1 : start < stop) (h2 : stop ≤ len) :
    ∃ ms, masksNew start stop len = .ok ms ∧
      List.Pairwise (fun p q : Nat × Nat => p.1 < q.1) ms ∧
      ∀ p ∈ ms, p.2 ≠ 0 ∧
        ∀ j, p.2.testBit j = true →
          j < wordBits ∧ start ≤ p.1 * wordBits + j ∧ p.1 * wordBits + j < stop := by
  unfold masksNew
  rw [if_neg (by omega), if_neg (by omega)]
  refine ⟨_, rfl, (masksGo_indices _ _ _ _ _).1, ?_⟩
  have hW := wordBits_pos
  have hdm_start := Nat.div_add_mod start wordBits
  have hdm_stop := Nat.div_add_mod stop wordBits
  have hmod_start := Nat.mod_lt start hW
  have hmod_stop := Nat.mod_lt stop hW
  intro p hp
  have := masksGo_bits (stop / wordBits + 1 - start / wordBits)
    (start / wordBits) ((wordMax <<< (start % wordBits)) % 2 ^ wordBits)
    (stop / wordBits) ((wordMax >>> 1) >>> (wordBits - stop % wordBits - 1))
    start stop ?_ ?_ ?_ ?_ ?_ p hp
  · exact ⟨this.1, this.2.2⟩
  · intro j hj
    rw [first_mask_testBit, decide_eq_true_eq] at hj
    constructor
    · exact hj.2
    · have : start / wordBits * wordBits = wordBits * (start / wordBits) := by ring
      omega
  · intro j hj
    rw [last_mask_testBit, decide_eq_true_eq] at hj
    constructor
    · omega
    · have : stop / wordBits * wordBits = wordBits * (stop / wordBits) := by ring
      omega
  · have : stop / wordBits * wordBits = wordBits * (stop / wordBits) := by ring
    omega
  · have : start / wordBits * wordBits = wordBits * (start / wordBits) := by ring
    omega
  · intro h0
    have hbit : ((wordMax <<< (start % wordBits)) % 2 ^ wordBits).testBit
        (wordBits - 1) = true := by
      rw [first_mask_testBit, decide_eq_true_eq]
      omega
    rw [h0, Nat.zero_testBit] at hbit
    exact Bool.noConfusion hbit

/-- The word-level effect of `set_ones(r)` then `set_zeros(r)`: every word
ends as its original value with the bits of `r` cleared; on a bitmap whose
bits in `r` are all zero, the round trip is the identity.  This is the
corrected version of the round-trip property. -/
theorem set_ones_set_zeros_roundtrip (b : Bitmap) (start stop : Nat)
    (hw : ∀ x ∈ b.blocks, x < 2 ^ wordBits)
    (h1 : start < stop) (h2 : stop ≤ wordBits * b.blocks.length)
    (hzero : ∀ p, start ≤ p → p < stop → bmBit b.blocks p = false) :
    ∃ b1, b.set_ones start stop = .ok b1 ∧ b1.set_zeros start stop = .ok b := by
  obtain ⟨ms, hms, hpw, hbits⟩ := masksNew_spec start stop
    (wordBits * b.blocks.length) h1 h2
  refine ⟨⟨applyMasks (fun w m => w ||| m) b.blocks ms⟩, ?_, ?_⟩
  · unfold Bitmap.set_ones
    rw [hms]
    rfl
  · unfold Bitmap.set_zeros
    simp only
    rw [applyMasks_length, hms]
    show Except.ok ⟨applyMasks (fun w m => w &&& (wordMax ^^^ m))
      (applyMasks (fun w m => w ||| m) b.blocks ms) ms⟩ = Except.ok b
    have hfinal : applyMasks (fun w m => w &&& (wordMax ^^^ m))
        (applyMasks (fun w m => w ||| m) b.blocks ms) ms = b.blocks := by
      apply List.ext_getElem
      · rw [applyMasks_length, applyMasks_length]
      · intro n hn1 hn2
        rw [← List.getD_eq_getElem _ 0 hn1, ← List.getD_eq_getElem _ 0 hn2]
        by_cases hmem : ∃ m, (n, m) ∈ ms
        · obtain ⟨m, hm⟩ := hmem
          have hlen1 : n < b.blocks.length := hn2
          have hlen2 : n < (applyMasks (fun w m => w ||| m) b.blocks ms).length := by
            rw [applyMasks_length]
            exact hn2
          rw [applyMasks_getD_mem _ ms _ n m hpw hm hlen2,
            applyMasks_getD_mem _ ms _ n m hpw hm hlen1]
          -- word-level: (w ||| m) &&& ~m = w when w shares no bit with m
          have hword : b.blocks.getD n 0 < 2 ^ wordBits :=
            getD_lt_two_pow hw n
          obtain ⟨hm0, hmb⟩ := hbits (n, m) hm
          apply Nat.eq_of_testBit_eq
          intro j
          rw [Nat.testBit_land, Nat.testBit_lor, Nat.testBit_xor, wordMax_testBit]
          by_cases hjw : j < wordBits
          · by_cases hmj : m.testBit j = true
            · -- the mask covers bit j, so the original bit is zero
              obtain ⟨_, hge, hlt⟩ := hmb j hmj
              have hbz : (b.blocks.getD n 0).testBit j = false := by
                have := hzero (n * wordBits + j) hge hlt
                rw [bmBit_decomp b.blocks n j hjw] at this
                exact this
              rw [hmj, hbz, decide_eq_true hjw]
              rfl
            · rw [Bool.not_eq_true] at hmj
              rw [hmj, decide_eq_true hjw]
              cases (b.blocks.getD n 0).testBit j <;> rfl
          · have hmj : m.testBit j = false := by
              cases hmjb : m.testBit j
              · rfl
              · exact absurd (hmb j hmjb).1 hjw
            have hbj : (b.blocks.getD n 0).testBit j = false :=
              Nat.testBit_eq_false_of_lt (lt_of_lt_of_le hword
                (Nat.pow_le_pow_right (by omega) (by omega)))
            rw [hmj, hbj, decide_eq_false hjw]
            rfl
        · push_neg at hmem
          rw [applyMasks_getD_not_mem _ ms _ n hmem,
            applyMasks_getD_not_mem _ ms _ n hmem]
    rw [hfinal]

/-- C7 counterexample: on the one-word bitmap `[1]` (bit 0 set) and the
range `[0, 1)`, `set_ones` then `set_zeros` yields the bitmap `[0]`, not the
original `[1]`: the round trip as claimed, for every bitmap and non-empty
in-bounds range, is false. -/
theorem c7_counterexample :
    (0 : Nat) < 1 ∧ 1 ≤ wordBits * (Bitmap.mk [1]).blocks.length ∧
    ((Bitmap.mk [1]).set_ones 0 1).bind (fun x => x.set_zeros 0 1)
      = .ok (Bitmap.mk [0]) ∧
    Bitmap.mk [0] ≠ Bitmap.mk [1] := by
  refine ⟨by decide, by decide, rfl, ?_⟩
  intro h
  have : ([0] : List Nat) = [1] := congrArg Bitmap.blocks h
  simp at this

/-- C7 (corrected): `set_ones(r); set_zeros(r)` restores the original bitmap
bit-for-bit provided every bit of `r` is zero in the original bitmap (the
allocator's usage pattern); in general the round trip clears `r`. -/
theorem c7_roundtrip_on_zeros (b : Bitmap) (start stop : Nat)
    (hw : ∀ x ∈ b.blocks, x < 2 ^ wordBits)
    (h1 : start < stop) (h2 : stop ≤ wordBits * b.blocks.length)
    (hzero : ∀ p, start ≤ p → p < stop → bmBit b.blocks p = false) :
    ∃ b1, b.set_ones start stop = .ok b1 ∧ b1.set_zeros start stop = .ok b :=
  set_ones_set_zeros_roundtrip b start stop hw h1 h2 hzero

/-- Witness for the corrected C7 on the bitmap `[4]` and the range `[0, 2)`. -/
theorem c7_witness :
    ((0 : Nat) < 2 ∧ 2 ≤ wordBits * (Bitmap.mk [4]).blocks.length) ∧
    ∃ b1, (Bitmap.mk [4]).set_ones 0 2 = .ok b1 ∧
      b1.set_zeros 0 2 = .ok (Bitmap.mk [4]) :=
  ⟨⟨by decide, by decide⟩,
    c7_roundtrip_on_zeros ⟨[4]⟩ 0 2 (by decide) (by decide) (by decide) (by decide)⟩

set_option maxRecDepth 8000 in
/-- C1: frame-allocator phase-2 initialization must preserve in-use frames
acquired during phase 1.  The code violates this: after phase-1 init plus an
intermediate allocation of frame 1500, that frame is marked used, but
`init_phys_mem_e820` rebuilds the allocator from the e820 map alone and
leaves frame 1500 marked free. -/
theorem c1_e820_forgets_phase1_allocations :
    ((init_phys_mem_bare.bind (fun pm => pm.mark_used 1500 1)).map
      (fun pm => bmBit pm.used.blocks 1500) = .ok true) ∧
    ((init_phys_mem_e820 [⟨0, 0x1000000, 1⟩]).map
      (fun pm => bmBit pm.used.blocks 1500) = .ok false) :=
  ⟨rfl, rfl⟩

set_option maxRecDepth 8000 in
/-- C2: on x86, for every page whose top-level entry is present, the child
table address computed by `table` on the recursively mapped top-level table
at `0xFFFFF000` (self-slot `R = 0x3FF`) is `(R << 22) | (i << 12)` where `i`
is the page's top-level index, modulo `2^32`. -/
theorem c2_table_recursive_address (entries : Nat → Nat) (page : Nat)
    (h : entries (Level2.index page) ≠ 0) :
    PageTable.table entries PAGE_TABLE_ADDR page
      = some (((0x3FF <<< 22) ||| (Level2.index page <<< 12)) % 2 ^ wordBits) := by
  have hidx : Level2.index page < 1024 := by
    have h1 : (page >>> 10) &&& 1023 ≤ 1023 := Nat.and_le_right
    have h2 : Level2.index page = (page >>> 10) &&& 1023 := rfl
    omega
  have key : ∀ i, i < 1024 →
      Page.ptr ((((PAGE_TABLE_ADDR <<< 10) % 2 ^ wordBits) >>> 12) ||| i)
        = ((0x3FF <<< 22) ||| (i <<< 12)) % 2 ^ wordBits := by decide
  unfold PageTable.table
  rw [if_neg h, key (Level2.index page) hidx]

set_option maxRecDepth 8000 in
/-- Witness for C2: a table with every entry present and page `5120`
(top-level index 5). -/
theorem c2_witness :
    ((fun _ : Nat => 3) (Level2.index 5120) ≠ 0) ∧
    PageTable.table (fun _ => 3) PAGE_TABLE_ADDR 5120
      = some (((0x3FF <<< 22) ||| (Level2.index 5120 <<< 12)) % 2 ^ wordBits) :=
  ⟨by decide, c2_table_recursive_address (fun _ => 3) 5120 (by decide)⟩

/-- C8 counterexample: with a 16 KiB stack buffer whose memory is pre-filled
with the word 7, building a context writes the entry point at the top but
leaves every callee-saved slot below it — including the slot the saved stack
pointer lands on — holding 7, not 0: the claimed zeroing does not happen. -/
theorem c8_counterexample :
    (Context.new 12345 0 16384 (fun _ => 7)).2 = 16364 ∧
    (Context.new 12345 0 16384 (fun _ => 7)).1 16376 = 7 ∧
    (Context.new 12345 0 16384 (fun _ => 7)).1 16364 = 7 ∧ (7 : Nat) ≠ 0 :=
  ⟨rfl, rfl, rfl, by decide⟩

/-- C8 (corrected): `Context::new` writes the entry point into the topmost
word of the stack buffer (`stack_base + stack_size - 4`), leaves every other
memory word unchanged — the four callee-saved slots below the entry slot are
only reserved by pointer arithmetic, not zeroed — and saves the stack pointer
`stack_base + stack_size - 20`, four words below the entry slot. -/
theorem c8_context_new_layout (entry_point stack_base stack_size : Nat)
    (mem : Nat → Nat) :
    (Context.new entry_point stack_base stack_size mem).2
        = stack_base + stack_size - 20 ∧
    (Context.new entry_point stack_base stack_size mem).1
        (stack_base + stack_size - 4) = entry_point ∧
    ∀ a, a ≠ stack_base + stack_size - 4 →
      (Context.new entry_point stack_base stack_size mem).1 a = mem a := by
  refine ⟨?_, ?_, ?_⟩
  · show stack_base + stack_size - 4 - 4 * 4 = stack_base + stack_size - 20
    omega
  · show (if stack_base + stack_size - 4 = stack_base + stack_size - 4
        then entry_point else mem (stack_base + stack_size - 4)) = entry_point
    rw [if_pos rfl]
  · intro a ha
    show (if a = stack_base + stack_size - 4 then entry_point else mem a) = mem a
    rw [if_neg ha]

/-- C9: invoking the preemption entry (`enter` with `interrupt = true`) while
the scheduler's work slot is empty panics with "Entered while not in a
thread" instead of yielding. -/
theorem c9_enter_interrupt_without_thread (s : Scheduler) (cur_sp : Nat)
    (h : s.work = none) :
    s.enter true cur_sp = .error "Entered while not in a thread" := by
  unfold Scheduler.enter
  rw [h, if_pos rfl]

/-- Witness for C9: a scheduler with an empty work slot. -/
theorem c9_witness :
    (Scheduler.mk 0 [] none).work = none ∧
    (Scheduler.mk 0 [] none).enter true 0 = .error "Entered while not in a thread" :=
  ⟨rfl, c9_enter_interrupt_without_thread ⟨0, [], none⟩ 0 rfl⟩

/-- A mapped leaf entry is never zero. -/
theorem entryMap_ne_zero (frame : Nat) : entryMap frame ≠ 0 := by
  intro h
  have hb : (entryMap frame).testBit 0 = true := by
    unfold entryMap
    rw [Nat.testBit_lor, Nat.testBit_lor]
    simp
  rw [h, Nat.zero_testBit] at hb
  exact Bool.noConfusion hb

/-- `table_create` either finds the table present and does nothing, or
installs a fresh zeroed table. -/
theorem tableCreate_cases {s s' : VMState} {page : Nat}
    (h : tableCreate s page = .ok s') :
    (s.l2 (Level2.index page) ≠ 0 ∧ s' = s) ∨
    (s.l2 (Level2.index page) = 0 ∧ ∃ frame phys,
      s' = ⟨phys,
        fun j => if j = Level2.index page then entryMap frame else s.l2 j,
        fun j => if j = Level2.index page then (fun _ => 0) else s.l1 j⟩) := by
  unfold tableCreate at h
  by_cases hp : s.l2 (Level2.index page) ≠ 0
  · rw [if_pos hp] at h
    injection h with h
    exact Or.inl ⟨hp, h.symm⟩
  · rw [if_neg hp] at h
    push_neg at hp
    refine Or.inr ⟨hp, ?_⟩
    split at h
    · exact Except.noConfusion h
    · exact Except.noConfusion h
    next frame heq =>
      split at h
      · exact Except.noConfusion h
      next phys heq2 =>
        injection h with h
        exact ⟨frame, phys, h.symm⟩

/-- `table_create` neither maps nor unmaps any page. -/
theorem tableCreate_mappedAt {s s' : VMState} {page : Nat}
    (h : tableCreate s page = .ok s') (i j : Nat) :
    mappedAt s' i j ↔ mappedAt s i j := by
  rcases tableCreate_cases h with ⟨_, rfl⟩ | ⟨hp, frame, phys, rfl⟩
  · exact Iff.rfl
  · by_cases hi : i = Level2.index page
    · constructor
      · rintro ⟨_, h1⟩
        have h1' : (if i = Level2.index page then (fun _ : Nat => (0 : Nat))
            else s.l1 i) j ≠ 0 := h1
        rw [if_pos hi] at h1'
        exact absurd rfl h1'
      · rintro ⟨h2, _⟩
        rw [hi] at h2
        exact absurd hp h2
    · constructor
      · rintro ⟨h2, h1⟩
        have h2' : (if i = Level2.index page then entryMap frame
            else s.l2 i) ≠ 0 := h2
        have h1' : (if i = Level2.index page then (fun _ : Nat => (0 : Nat))
            else s.l1 i) j ≠ 0 := h1
        rw [if_neg hi] at h2' h1'
        exact ⟨h2', h1'⟩
      · rintro ⟨h2, h1⟩
        refine ⟨?_, ?_⟩
        · show (if i = Level2.index page then entryMap frame else s.l2 i) ≠ 0
          rw [if_neg hi]; exact h2
        · show (if i = Level2.index page then (fun _ : Nat => (0 : Nat))
              else s.l1 i) j ≠ 0
          rw [if_neg hi]; exact h1

/-- After a successful `table_create`, the covering table is present. -/
theorem tableCreate_present {s s' : VMState} {page : Nat}
    (h : tableCreate s page = .ok s') : s'.l2 (Level2.index page) ≠ 0 := by
  rcases tableCreate_cases h with ⟨hp, rfl⟩ | ⟨_, frame, phys, rfl⟩
  · exact hp
  · show (if Level2.index page = Level2.index page then entryMap frame
        else s.l2 (Level2.index page)) ≠ 0
    rw [if_pos rfl]
    exact entryMap_ne_zero frame

theorem l1set_same (f : Nat → Nat → Nat) (i j v : Nat) : l1set f i j v i j = v := by
  unfold l1set
  rw [if_pos rfl, if_pos rfl]

theorem l1set_other (f : Nat → Nat → Nat) (i j v a b : Nat)
    (h : ¬ (a = i ∧ b = j)) : l1set f i j v a b = f a b := by
  unfold l1set
  by_cases ha : a = i
  · subst ha
    rw [if_pos rfl, if_neg (fun hb => h ⟨rfl, hb⟩)]
  · rw [if_neg ha]

/-- Setting one leaf entry to a non-zero value maps exactly that index pair
(provided its table is present) and nothing else. -/
theorem mappedAt_l1set (phys : PhysicalMemory) (l2 : Nat → Nat)
    (l1 : Nat → Nat → Nat) (i0 j0 v : Nat) (hv : v ≠ 0) (hp : l2 i0 ≠ 0)
    (i j : Nat) :
    mappedAt ⟨phys, l2, l1set l1 i0 j0 v⟩ i j ↔
      (mappedAt ⟨phys, l2, l1⟩ i j ∨ (i = i0 ∧ j = j0)) := by
  show (l2 i ≠ 0 ∧ l1set l1 i0 j0 v i j ≠ 0) ↔
    ((l2 i ≠ 0 ∧ l1 i j ≠ 0) ∨ (i = i0 ∧ j = j0))
  by_cases hij : i = i0 ∧ j = j0
  · obtain ⟨rfl, rfl⟩ := hij
    rw [l1set_same]
    constructor
    · intro _; exact Or.inr ⟨rfl, rfl⟩
    · intro _; exact ⟨hp, hv⟩
  · rw [l1set_other _ _ _ _ _ _ hij]
    constructor
    · exact Or.inl
    · rintro (hm | hij2)
      · exact hm
      · exact absurd hij2 hij

/-- Unfolding equation for `mapLoop` on a positive count. -/
theorem mapLoop_succ (count : Nat) (s : VMState) (page frame : Nat) :
    mapLoop (count + 1) s page frame =
      match tableCreate s page with
      | .error e => .error e
      | .ok s1 =>
        if s1.l1 (Level2.index page) (Level1.index page) ≠ 0 then
          .error "non-contiguous"
        else
          mapLoop count
            ⟨s1.phys, s1.l2,
              l1set s1.l1 (Level2.index page) (Level1.index page) (entryMap frame)⟩
            (page + 1) (frame + 1) := rfl

/-- Master lemma for `map`'s page loop: on success, every page of the range
was unmapped beforehand (the "non-contiguous" check), and afterwards exactly
the previously mapped pages plus the range are mapped. -/
theorem mapLoop_mapped : ∀ (count : Nat) (s : VMState) (page frame : Nat)
    (s' : VMState), mapLoop count s page frame = .ok s' →
    ∀ i j,
      ((∃ k, k < count ∧ i = Level2.index (page + k) ∧ j = Level1.index (page + k)) →
        ¬ mappedAt s i j) ∧
      (mappedAt s' i j ↔ (mappedAt s i j ∨
        ∃ k, k < count ∧ i = Level2.index (page + k) ∧ j = Level1.index (page + k))) := by
  intro count
  induction count with
  | zero =>
    intro s page frame s' h i j
    injection h with h
    subst h
    constructor
    · rintro ⟨k, hk, -, -⟩
      omega
    · constructor
      · exact Or.inl
      · rintro (hm | ⟨k, hk, -, -⟩)
        · exact hm
        · omega
  | succ count ih =>
    intro s page frame s' h i j
    rw [mapLoop_succ] at h
    split at h
    · exact Except.noConfusion h
    next s1 htc =>
      by_cases hleaf : s1.l1 (Level2.index page) (Level1.index page) ≠ 0
      · rw [if_pos hleaf] at h
        exact Except.noConfusion h
      · rw [if_neg hleaf] at h
        push_neg at hleaf
        have htcm := tableCreate_mappedAt htc
        have hpres := tableCreate_present htc
        have hset := fun i j => mappedAt_l1set s1.phys s1.l2 s1.l1
          (Level2.index page) (Level1.index page) (entryMap frame)
          (entryMap_ne_zero frame) hpres i j
        have ihh := ih _ (page + 1) (frame + 1) s' h
        constructor
        · rintro ⟨k, hk, hi, hj⟩ hm
          have hm1 : mappedAt s1 i j := (htcm i j).mpr hm
          cases k with
          | zero =>
            rw [Nat.add_zero] at hi hj
            subst hi; subst hj
            exact hm1.2 hleaf
          | succ k =>
            have harith : page + (k + 1) = page + 1 + k := by omega
            rw [harith] at hi hj
            exact (ihh i j).1 ⟨k, by omega, hi, hj⟩
              ((hset i j).mpr (Or.inl hm1))
        · constructor
          · intro hm'
            rcases (ihh i j).2.mp hm' with hm2 | ⟨k, hk, hi, hj⟩
            · rcases (hset i j).mp hm2 with hm1 | ⟨hi, hj⟩
              · exact Or.inl ((htcm i j).mp hm1)
              · refine Or.inr ⟨0, by omega, ?_, ?_⟩
                · rw [Nat.add_zero]; exact hi
                · rw [Nat.add_zero]; exact hj
            · refine Or.inr ⟨k + 1, by omega, ?_, ?_⟩
              · rw [show page + (k + 1) = page + 1 + k by omega]; exact hi
              · rw [show page + (k + 1) = page + 1 + k by omega]; exact hj
          · rintro (hm | ⟨k, hk, hi, hj⟩)
            · exact (ihh i j).2.mpr
                (Or.inl ((hset i j).mpr (Or.inl ((htcm i j).mpr hm))))
            · cases k with
              | zero =>
                rw [Nat.add_zero] at hi hj
                exact (ihh i j).2.mpr (Or.inl ((hset i j).mpr (Or.inr ⟨hi, hj⟩)))
              | succ k =>
                have harith : page + (k + 1) = page + 1 + k := by omega
                rw [harith] at hi hj
                exact (ihh i j).2.mpr (Or.inr ⟨k, by omega, hi, hj⟩)

/-- Decomposition of a successful `allocate_contiguous`. -/
theorem allocate_contiguous_ok {s : VMState} {ps count fuel p f : Nat}
    {s1 : VMState}
    (h : allocate_contiguous s ps count fuel = .ok (some (p, f, s1))) :
    ∃ phys, s.phys.find_free count = .ok (some f) ∧
      s.phys.mark_used f count = .ok phys ∧
      findFreeVirt fuel ⟨phys, s.l2, s.l1⟩ ps 0 count = some p ∧
      mapLoop count ⟨phys, s.l2, s.l1⟩ p f = .ok s1 := by
  unfold allocate_contiguous at h
  split at h
  · exact Except.noConfusion h
  · injection h with h
    exact Option.noConfusion h
  next fs hf =>
    split at h
    · exact Except.noConfusion h
    next phys hm =>
      unfold vmMap at h
      split at h
      · exact Except.noConfusion h
      · injection h with h
        exact Option.noConfusion h
      next ps' sm hv =>
        injection h with h
        injection h with h
        injection h with h1 h23
        injection h23 with h2 h3
        subst h1; subst h2; subst h3
        split at hv
        · injection hv with hv
          exact Option.noConfusion hv
        next p2 hff =>
          split at hv
          · exact Except.noConfusion hv
          next s2 hml =>
            injection hv with hv
            injection hv with hv
            injection hv with hv1 hv2
            subst hv1; subst hv2
            exact ⟨phys, hf, hm, hff, hml⟩

/-- C5 counterexample (to the claim's parenthetical guarantee): on a state
whose table 1 is absent and whose table 2 is fully mapped, the virtual
`find_free` sweep started at page 1500 with count 600 returns the range
`[1500, 2100)`, which contains the already-mapped page 2048: skipping
`PAGES_PER_TABLE` pages on an absent table overshoots into the next table
without checking it. -/
theorem c5_find_free_overshoot :
    findFreeVirt 4 c5overState 1500 0 600 = some 1500 ∧
    Mapped c5overState 2048 ∧ 1500 ≤ 2048 ∧ 2048 < 1500 + 600 :=
  ⟨rfl, ⟨by decide, by decide⟩, by decide, by decide⟩

/-- C5 (corrected): two consecutive successful `allocate` calls return
disjoint page ranges.  This holds because `map` panics ("non-contiguous")
rather than remap a used page, not because the virtual `find_free` avoids
mapped pages — the latter is refuted by the counterexample. -/
theorem c5_allocate_disjoint (s s1 s2 : VMState)
    (n ps1 ps2 fuel1 fuel2 p1 f1 p2 f2 : Nat)
    (h1 : allocate_contiguous s ps1 n fuel1 = .ok (some (p1, f1, s1)))
    (h2 : allocate_contiguous s1 ps2 n fuel2 = .ok (some (p2, f2, s2))) :
    ∀ q, ¬ (p1 ≤ q ∧ q < p1 + n ∧ p2 ≤ q ∧ q < p2 + n) := by
  obtain ⟨phys1, -, -, -, hml1⟩ := allocate_contiguous_ok h1
  obtain ⟨phys2, -, -, -, hml2⟩ := allocate_contiguous_ok h2
  rintro q ⟨hq1, hq2, hq3, hq4⟩
  have hmapped : mappedAt s1 (Level2.index q) (Level1.index q) := by
    refine (mapLoop_mapped n _ p1 f1 s1 hml1 (Level2.index q) (Level1.index q)).2.mpr
      (Or.inr ⟨q - p1, by omega, ?_, ?_⟩)
    · rw [show p1 + (q - p1) = q by omega]
    · rw [show p1 + (q - p1) = q by omega]
  have hnot : ¬ mappedAt ⟨phys2, s1.l2, s1.l1⟩ (Level2.index q) (Level1.index q) := by
    refine (mapLoop_mapped n _ p2 f2 s2 hml2 (Level2.index q) (Level1.index q)).1
      ⟨q - p2, by omega, ?_, ?_⟩
    · rw [show p2 + (q - p2) = q by omega]
    · rw [show p2 + (q - p2) = q by omega]
  exact hnot hmapped

/-- Witness for the corrected C5: two consecutive one-page allocations at
pages 0 and 1 on a fresh state; the ranges `[0, 1)` and `[1, 2)` are
disjoint. -/
theorem c5_witness :
    allocate_contiguous c5state 0 1 4 = .ok (some (0, 0, c5s1)) ∧
    allocate_contiguous c5s1 0 1 4 = .ok (some (1, 1, c5s2)) ∧
    ∀ q, ¬ ((0 : Nat) ≤ q ∧ q < 0 + 1 ∧ 1 ≤ q ∧ q < 1 + 1) :=
  ⟨rfl, rfl,
    c5_allocate_disjoint c5state c5s1 c5s2 1 0 0 4 4 0 0 1 1 rfl rfl⟩

/-- `Masks::new` succeeds only on non-empty in-bounds ranges. -/
theorem masksNew_ok_bounds {start stop len : Nat} {ms : List (Nat × Nat)}
    (h : masksNew start stop len = .ok ms) : start < stop ∧ stop ≤ len := by
  unfold masksNew at h
  by_cases h1 : stop ≤ start
  · rw [if_pos h1] at h
    exact Except.noConfusion h
  · rw [if_neg h1] at h
    by_cases h2 : len < stop
    · rw [if_pos h2] at h
      exact Except.noConfusion h
    · omega

/-- A successful `set_ones` had an in-bounds range and preserves the word
count. -/
theorem set_ones_ok {b b' : Bitmap} {start stop : Nat}
    (h : b.set_ones start stop = .ok b') :
    start < stop ∧ stop ≤ wordBits * b.blocks.length ∧
      b'.blocks.length = b.blocks.length := by
  unfold Bitmap.set_ones at h
  cases hms : masksNew start stop (wordBits * b.blocks.length) with
  | error e =>
    rw [hms] at h
    exact Except.noConfusion h
  | ok ms =>
    rw [hms] at h
    have h' : Except.ok (Bitmap.mk (applyMasks (fun w m => w ||| m) b.blocks ms))
        = Except.ok b' := h
    injection h' with h'
    obtain ⟨hlt, hle⟩ := masksNew_ok_bounds hms
    refine ⟨hlt, hle, ?_⟩
    rw [← h']
    exact applyMasks_length _ _ _

/-- `mark_used` on success: non-empty in-bounds range, free count
decremented, word count preserved. -/
theorem mark_used_ok {pm pm' : PhysicalMemory} {a n : Nat}
    (h : pm.mark_used a n = .ok pm') :
    a < a + n ∧ a + n ≤ wordBits * pm.used.blocks.length ∧
      pm'.free = pm.free - n ∧
      pm'.used.blocks.length = pm.used.blocks.length := by
  unfold PhysicalMemory.mark_used at h
  cases hs : pm.used.set_ones a (a + n) with
  | error e =>
    rw [hs] at h
    exact Except.noConfusion h
  | ok b =>
    rw [hs] at h
    have h' : Except.ok (PhysicalMemory.mk b (pm.free - n)) = Except.ok pm' := h
    injection h' with h'
    obtain ⟨hlt, hle, hlen⟩ := set_ones_ok hs
    subst h'
    exact ⟨hlt, hle, rfl, hlen⟩

/-- `mark_free` of one in-bounds frame always succeeds, increments the free
count and preserves the word count. -/
theorem mark_free_one (pm : PhysicalMemory) (a : Nat)
    (h : a + 1 ≤ wordBits * pm.used.blocks.length) :
    ∃ b, pm.mark_free a 1 = .ok ⟨b, pm.free + 1⟩ ∧
      b.blocks.length = pm.used.blocks.length := by
  obtain ⟨ms, hms, -⟩ := masksNew_spec a (a + 1)
    (wordBits * pm.used.blocks.length) (by omega) h
  refine ⟨⟨applyMasks (fun w m => w &&& (wordMax ^^^ m)) pm.used.blocks ms⟩,
    ?_, applyMasks_length _ _ _⟩
  unfold PhysicalMemory.mark_free Bitmap.set_zeros
  rw [hms]
  rfl

/-- `find_free` only answers when the free count suffices. -/
theorem find_free_some_le {pm : PhysicalMemory} {n f : Nat}
    (h : pm.find_free n = .ok (some f)) : n ≤ pm.free := by
  unfold PhysicalMemory.find_free at h
  by_cases hlt : pm.free < n
  · rw [if_pos hlt] at h
    injection h with h
    exact Option.noConfusion h
  · omega

/-- Unfolding equation for the virtual `find_free` sweep. -/
theorem findFreeVirt_succ (fuel : Nat) (s : VMState) (ps c n : Nat) :
    findFreeVirt (fuel + 1) s ps c n =
      if c < n then
        if PAGES_TOTAL < ps + n then none
        else if s.l2 (Level2.index (ps + c)) = 0 then
          findFreeVirt fuel s ps (c + PAGES_PER_TABLE) n
        else if s.l1 (Level2.index (ps + c)) (Level1.index (ps + c)) = 0 then
          findFreeVirt fuel s ps (c + 1) n
        else findFreeVirt fuel s (ps + 1 + c) 0 n
      else some ps := rfl

/-- A successful virtual `find_free` keeps the whole range below
`PAGES_TOTAL` (the guard is checked before the final extension of the run). -/
theorem findFreeVirt_bound : ∀ (fuel : Nat) (s : VMState) (ps c n r : Nat),
    findFreeVirt fuel s ps c n = some r → c < n → r + n ≤ PAGES_TOTAL := by
  intro fuel
  induction fuel with
  | zero =>
    intro s ps c n r h hc
    exact Option.noConfusion h
  | succ fuel ih =>
    intro s ps c n r h hc
    rw [findFreeVirt_succ, if_pos hc] at h
    by_cases hg : PAGES_TOTAL < ps + n
    · rw [if_pos hg] at h
      exact Option.noConfusion h
    · rw [if_neg hg] at h
      by_cases h2 : s.l2 (Level2.index (ps + c)) = 0
      · rw [if_pos h2] at h
        by_cases hc' : c + PAGES_PER_TABLE < n
        · exact ih s ps _ n r h hc'
        · cases fuel with
          | zero => exact Option.noConfusion h
          | succ fuel2 =>
            rw [findFreeVirt_succ, if_neg hc'] at h
            injection h with h
            omega
      · rw [if_neg h2] at h
        by_cases h1 : s.l1 (Level2.index (ps + c)) (Level1.index (ps + c)) = 0
        · rw [if_pos h1] at h
          by_cases hc' : c + 1 < n
          · exact ih s ps _ n r h hc'
          · cases fuel with
            | zero => exact Option.noConfusion h
            | succ fuel2 =>
              rw [findFreeVirt_succ, if_neg hc'] at h
              injection h with h
              omega
        · rw [if_neg h1] at h
          exact ih s _ 0 n r h (by omega)

/-- `Level2::index` in div/mod form. -/
theorem level2_index_eq_div (a : Nat) : Level2.index a = a / 1024 % 1024 := by
  have h0 : Level2.index a = (a >>> 10) &&& (2 ^ 10 - 1) := rfl
  rw [h0, Nat.and_pow_two_sub_one_eq_mod, Nat.shiftRight_eq_div_pow]

/-- `Level1::index` in mod form. -/
theorem level1_index_eq_mod (a : Nat) : Level1.index a = a % 1024 := by
  have h0 : Level1.index a = a &&& (2 ^ 10 - 1) := rfl
  rw [h0, Nat.and_pow_two_sub_one_eq_mod]

/-- Below `PAGES_TOTAL`, a page is determined by its two table indices. -/
theorem index_inj {a b : Nat} (ha : a < 2 ^ 20) (hb : b < 2 ^ 20)
    (h2 : Level2.index a = Level2.index b)
    (h1 : Level1.index a = Level1.index b) : a = b := by
  rw [level2_index_eq_div a, level2_index_eq_div b] at h2
  rw [level1_index_eq_mod a, level1_index_eq_mod b] at h1
  rw [show (2 : Nat) ^ 20 = 1048576 by norm_num] at ha hb
  omega

/-- Shifting out a `k`-bit tag recovers the high part. -/
theorem lor_low_shiftRight (a y k : Nat) (ha : a < 2 ^ k) :
    (a ||| y * 2 ^ k) >>> k = y := by
  apply Nat.eq_of_testBit_eq
  intro i
  rw [Nat.testBit_shiftRight, Nat.testBit_lor]
  have h1 : a.testBit (k + i) = false :=
    Nat.testBit_eq_false_of_lt
      (lt_of_lt_of_le ha (Nat.pow_le_pow_right (by omega) (by omega)))
  have h2 : (y * 2 ^ k).testBit (k + i) = y.testBit i := by
    rw [← Nat.shiftLeft_eq, Nat.testBit_shiftLeft]
    simp
  rw [h1, h2, Bool.false_or]

/-- `unmap` recovers the frame from a mapped entry, truncated to 20 bits by
the `usize` shift in `map`. -/
theorem entryMap_shr (frame : Nat) : entryMap frame >>> 12 = frame % 2 ^ 20 := by
  have h0 : entryMap frame = 3 ||| (frame % 2 ^ 20) * 2 ^ 12 := by
    show 1 ||| 2 ||| ((frame <<< 12) % 2 ^ wordBits)
      = 3 ||| (frame % 2 ^ 20) * 2 ^ 12
    rw [Nat.shiftLeft_eq,
      show (2 : Nat) ^ wordBits = 2 ^ 20 * 2 ^ 12 by norm_num [wordBits],
      Nat.mul_mod_mul_right]
    rfl
  rw [h0]
  exact lor_low_shiftRight 3 (frame % 2 ^ 20) 12 (by norm_num)

/-- When every covering table pre-exists, `map`'s page loop allocates no
frames: the physical state and the L2 array are untouched, leaves outside
the range keep their values, and each page of the range maps its frame. -/
theorem mapLoop_all_present : ∀ (count : Nat) (s : VMState) (page frame : Nat)
    (s' : VMState),
    (∀ k, k < count → s.l2 (Level2.index (page + k)) ≠ 0) →
    mapLoop count s page frame = .ok s' →
    s'.phys = s.phys ∧ s'.l2 = s.l2 ∧
    (∀ i j, (∀ k, k < count →
        ¬ (i = Level2.index (page + k) ∧ j = Level1.index (page + k))) →
      s'.l1 i j = s.l1 i j) ∧
    (∀ k, k < count →
      (∀ m, k < m → m < count →
        ¬ (Level2.index (page + k) = Level2.index (page + m) ∧
           Level1.index (page + k) = Level1.index (page + m))) →
      s'.l1 (Level2.index (page + k)) (Level1.index (page + k))
        = entryMap (frame + k)) := by
  intro count
  induction count with
  | zero =>
    intro s page frame s' hp h
    injection h with h
    subst h
    exact ⟨rfl, rfl, fun i j _ => rfl, fun k hk _ => absurd hk (by omega)⟩
  | succ count ih =>
    intro s page frame s' hp h
    have hp0 : s.l2 (Level2.index page) ≠ 0 := by
      have h0 := hp 0 (by omega)
      rwa [Nat.add_zero] at h0
    have htc : tableCreate s page = .ok s := by
      unfold tableCreate
      rw [if_pos hp0]
    rw [mapLoop_succ, htc] at h
    replace h : (if s.l1 (Level2.index page) (Level1.index page) ≠ 0 then
        (Except.error "non-contiguous" : Except String VMState)
      else mapLoop count ⟨s.phys, s.l2,
          l1set s.l1 (Level2.index page) (Level1.index page) (entryMap frame)⟩
        (page + 1) (frame + 1)) = .ok s' := h
    by_cases hleaf : s.l1 (Level2.index page) (Level1.index page) ≠ 0
    · rw [if_pos hleaf] at h
      exact Except.noConfusion h
    · rw [if_neg hleaf] at h
      have hp' : ∀ k, k < count →
          (⟨s.phys, s.l2, l1set s.l1 (Level2.index page) (Level1.index page)
            (entryMap frame)⟩ : VMState).l2 (Level2.index (page + 1 + k)) ≠ 0 := by
        intro k hk
        have hh := hp (k + 1) (by omega)
        rwa [show page + (k + 1) = page + 1 + k by omega] at hh
      obtain ⟨hphys, hl2, huntouched, hwritten⟩ := ih _ (page + 1) (frame + 1) s' hp' h
      refine ⟨hphys, hl2, ?_, ?_⟩
      · intro i j havoid
        have h1 := huntouched i j (fun k hk => by
          have hh := havoid (k + 1) (by omega)
          rwa [show page + (k + 1) = page + 1 + k by omega] at hh)
        rw [h1]
        show l1set s.l1 (Level2.index page) (Level1.index page)
          (entryMap frame) i j = s.l1 i j
        apply l1set_other
        have h0 := havoid 0 (by omega)
        rwa [Nat.add_zero] at h0
      · intro k hk hd
        cases k with
        | zero =>
          have hnone : ∀ k', k' < count →
              ¬ (Level2.index page = Level2.index (page + 1 + k') ∧
                 Level1.index page = Level1.index (page + 1 + k')) := by
            intro k' hk'
            have hh := hd (k' + 1) (by omega) (by omega)
            rwa [Nat.add_zero, show page + (k' + 1) = page + 1 + k' by omega] at hh
          have h1 := huntouched (Level2.index page) (Level1.index page) hnone
          rw [Nat.add_zero, Nat.add_zero, h1]
          show l1set s.l1 (Level2.index page) (Level1.index page)
            (entryMap frame) (Level2.index page) (Level1.index page) = entryMap frame
          exact l1set_same _ _ _ _
        | succ k =>
          have hd' : ∀ m, k < m → m < count →
              ¬ (Level2.index (page + 1 + k) = Level2.index (page + 1 + m) ∧
                 Level1.index (page + 1 + k) = Level1.index (page + 1 + m)) := by
            intro m hm1 hm2
            have hh := hd (m + 1) (by omega) (by omega)
            rwa [show page + (k + 1) = page + 1 + k by omega,
              show page + (m + 1) = page + 1 + m by omega] at hh
          have hw := hwritten k (by omega) hd'
          rw [show page + (k + 1) = page + 1 + k by omega,
            show frame + (k + 1) = frame + 1 + k by omega]
          exact hw

/-- Unfolding equation for `free`'s page loop. -/
theorem freeLoop_succ (count : Nat) (s : VMState) (page : Nat) :
    freeLoop (count + 1) s page =
      if s.l2 (Level2.index page) = 0 then .error "already freed"
      else if s.l1 (Level2.index page) (Level1.index page) = 0 then
        .error "already freed"
      else
        match s.phys.mark_free
            (s.l1 (Level2.index page) (Level1.index page) >>> 12) 1 with
        | .error e => .error e
        | .ok phys =>
          freeLoop count
            ⟨phys, s.l2, l1set s.l1 (Level2.index page) (Level1.index page) 0⟩
            (page + 1) := rfl

/-- `free`'s page loop succeeds on a range of mapped pages with distinct
index pairs and in-bounds frames, returning every frame: the free count rises
by exactly `count` and the bitmap keeps its word count. -/
theorem freeLoop_spec : ∀ (count : Nat) (s : VMState) (page : Nat),
    (∀ k, k < count → s.l2 (Level2.index (page + k)) ≠ 0) →
    (∀ k, k < count → s.l1 (Level2.index (page + k)) (Level1.index (page + k)) ≠ 0) →
    (∀ k, k < count →
      (s.l1 (Level2.index (page + k)) (Level1.index (page + k)) >>> 12) + 1
        ≤ wordBits * s.phys.used.blocks.length) →
    (∀ k m, k < m → m < count →
      ¬ (Level2.index (page + k) = Level2.index (page + m) ∧
         Level1.index (page + k) = Level1.index (page + m))) →
    ∃ s', freeLoop count s page = .ok s' ∧
      s'.phys.free = s.phys.free + count ∧
      s'.phys.used.blocks.length = s.phys.used.blocks.length := by
  intro count
  induction count with
  | zero =>
    intro s page _ _ _ _
    exact ⟨s, rfl, by omega, rfl⟩
  | succ count ih =>
    intro s page hl2 hl1 hbound hdist
    have h20 : s.l2 (Level2.index page) ≠ 0 := by
      have h0 := hl2 0 (by omega)
      rwa [Nat.add_zero] at h0
    have h10 : s.l1 (Level2.index page) (Level1.index page) ≠ 0 := by
      have h0 := hl1 0 (by omega)
      rwa [Nat.add_zero] at h0
    have hb0 : (s.l1 (Level2.index page) (Level1.index page) >>> 12) + 1
        ≤ wordBits * s.phys.used.blocks.length := by
      have h0 := hbound 0 (by omega)
      rwa [Nat.add_zero] at h0
    obtain ⟨b, hmf, hblen⟩ := mark_free_one s.phys _ hb0
    have hcond : ∀ k, k < count →
        ¬ (Level2.index (page + 1 + k) = Level2.index page ∧
           Level1.index (page + 1 + k) = Level1.index page) := by
      intro k hk
      have hh := hdist 0 (k + 1) (by omega) (by omega)
      rw [Nat.add_zero, show page + (k + 1) = page + 1 + k by omega] at hh
      exact fun ⟨x, y⟩ => hh ⟨x.symm, y.symm⟩
    obtain ⟨s', hfl, hfree, hlen⟩ := ih
      ⟨⟨b, s.phys.free + 1⟩, s.l2,
        l1set s.l1 (Level2.index page) (Level1.index page) 0⟩ (page + 1)
      (fun k hk => by
        have hh := hl2 (k + 1) (by omega)
        rwa [show page + (k + 1) = page + 1 + k by omega] at hh)
      (fun k hk => by
        show l1set s.l1 (Level2.index page) (Level1.index page) 0
          (Level2.index (page + 1 + k)) (Level1.index (page + 1 + k)) ≠ 0
        rw [l1set_other _ _ _ _ _ _ (hcond k hk)]
        have hh := hl1 (k + 1) (by omega)
        rwa [show page + (k + 1) = page + 1 + k by omega] at hh)
      (fun k hk => by
        show (l1set s.l1 (Level2.index page) (Level1.index page) 0
            (Level2.index (page + 1 + k)) (Level1.index (page + 1 + k)) >>> 12) + 1
          ≤ wordBits * b.blocks.length
        rw [l1set_other _ _ _ _ _ _ (hcond k hk), hblen]
        have hh := hbound (k + 1) (by omega)
        rwa [show page + (k + 1) = page + 1 + k by omega] at hh)
      (fun k m hkm hm => by
        have hh := hdist (k + 1) (m + 1) (by omega) (by omega)
        rwa [show page + (k + 1) = page + 1 + k by omega,
          show page + (m + 1) = page + 1 + m by omega] at hh)
    refine ⟨s', ?_, ?_, ?_⟩
    · rw [freeLoop_succ, if_neg h20, if_neg h10, hmf]
      exact hfl
    · rw [hfree]
      show s.phys.free + 1 + count = s.phys.free + (count + 1)
      omega
    · rw [hlen]
      exact hblen

/-- C6 counterexample: with 32 free frames and no table present, a one-page
allocation consumes two frames (one for the page, one for the intermediate
L1 table), but `free` returns only the page's frame: the free count comes
back to 31, not the original 32. -/
theorem c6_counterexample :
    c6state.phys.free = 32 ∧
    allocate_contiguous c6state 0 1 4 = .ok (some (0, 0, c6s1)) ∧
    (vmFree c6s1 0 1).map (fun s => s.phys.free) = .ok 31 ∧ (31 : Nat) ≠ 32 :=
  ⟨rfl, rfl, rfl, by decide⟩

/-- C6 (corrected): `allocate(n) = Some(p)` followed by `free(p, n)` restores
the frame allocator's free count exactly, provided every L2 table covering
the allocated range already existed before the allocation (so no
intermediate-table frames are consumed) and the physical capacity fits the
entry width (at most `2^20` frames). -/
theorem c6_alloc_free_restores_free_count (s : VMState) (ps n fuel p f : Nat)
    (s1 : VMState) (hn : 1 ≤ n)
    (halloc : allocate_contiguous s ps n fuel = .ok (some (p, f, s1)))
    (htables : ∀ k, k < n → s.l2 (Level2.index (p + k)) ≠ 0)
    (hcap : wordBits * s.phys.used.blocks.length ≤ 2 ^ 20) :
    ∃ s2, vmFree s1 p n = .ok s2 ∧ s2.phys.free = s.phys.free := by
  obtain ⟨phys1, hf, hm, hff, hml⟩ := allocate_contiguous_ok halloc
  have hfree_ge : n ≤ s.phys.free := find_free_some_le hf
  obtain ⟨hlt, hle, hfr, hlen⟩ := mark_used_ok hm
  have hpn : p + n ≤ PAGES_TOTAL := findFreeVirt_bound fuel _ ps 0 n p hff (by omega)
  have hPT : PAGES_TOTAL = 1048575 := by norm_num [PAGES_TOTAL]
  have h2p : (2 : Nat) ^ 20 = 1048576 := by norm_num
  have hpages : ∀ k, k < n → p + k < 2 ^ 20 := by
    intro k hk
    omega
  have hdist : ∀ k m, k < m → m < n →
      ¬ (Level2.index (p + k) = Level2.index (p + m) ∧
         Level1.index (p + k) = Level1.index (p + m)) := by
    rintro k m hkm hm2 ⟨e2, e1⟩
    have := index_inj (hpages k (by omega)) (hpages m hm2) e2 e1
    omega
  obtain ⟨hphys, hl2, -, hwritten⟩ :=
    mapLoop_all_present n ⟨phys1, s.l2, s.l1⟩ p f s1 htables hml
  have hleaf : ∀ k, k < n →
      s1.l1 (Level2.index (p + k)) (Level1.index (p + k)) = entryMap (f + k) :=
    fun k hk => hwritten k hk (fun m hm1 hm2 => hdist k m hm1 hm2)
  have hfn : f + n ≤ 2 ^ 20 := by omega
  have hL2 : ∀ k, k < n → s1.l2 (Level2.index (p + k)) ≠ 0 := by
    intro k hk
    rw [hl2]
    exact htables k hk
  have hL1 : ∀ k, k < n →
      s1.l1 (Level2.index (p + k)) (Level1.index (p + k)) ≠ 0 := by
    intro k hk
    rw [hleaf k hk]
    exact entryMap_ne_zero _
  have hB : ∀ k, k < n →
      (s1.l1 (Level2.index (p + k)) (Level1.index (p + k)) >>> 12) + 1
        ≤ wordBits * s1.phys.used.blocks.length := by
    intro k hk
    rw [hleaf k hk, entryMap_shr, Nat.mod_eq_of_lt (by omega), hphys]
    show f + k + 1 ≤ wordBits * phys1.used.blocks.length
    rw [hlen]
    omega
  obtain ⟨s2, hfl, hfree2, -⟩ := freeLoop_spec n s1 p hL2 hL1 hB hdist
  refine ⟨s2, hfl, ?_⟩
  rw [hfree2, hphys]
  show phys1.free + n = s.phys.free
  omega

/-- Witness for the corrected C6: a one-page allocation on a state whose
covering table pre-exists; freeing returns the free count to 32. -/
theorem c6_witness :
    ((1 : Nat) ≤ 1 ∧ (∀ k, k < 1 → c6wstate.l2 (Level2.index (0 + k)) ≠ 0) ∧
      wordBits * c6wstate.phys.used.blocks.length ≤ 2 ^ 20) ∧
    ∃ s2, vmFree c6ws1 0 1 = .ok s2 ∧ s2.phys.free = c6wstate.phys.free :=
  ⟨⟨by decide, by decide, by decide⟩,
    c6_alloc_free_restores_free_count c6wstate 0 1 4 0 0 c6ws1 (by decide) rfl
      (by decide) (by decide)⟩

end Cyclone

